import Mathlib

/-!
Verification of the wallet-guardian computation-graph orchestrator.

This file is a shallow embedding, in Lean 4, of the core logic of
`src/wallet-guardian/src/graph_orchestrator.py` and
`src/wallet-guardian/src/common.py`:

* the pure risk/metric functions (`compute_concentration`,
  `compute_stablecoin_ratio`, `extract_counterparties`,
  `detect_suspicious_patterns`, `compute_trust_score`, `RiskLevel`);
* the TTL cache (`WalletDataCache`) with value-string invalidation;
* the computation-graph engine (`_validate_dag`, `_topological_sort`,
  `get_parallel_batches`, `execute`, `_execute_node`);
* the canonical wallet-analysis graph built by
  `WalletAnalysisGraphBuilder.build_graph`;
* an interleaving model of the single-flight fetch in
  `UnifiedDataFetcher.get_balances`.

Python floats are modelled as rationals (`ℚ`); all inputs involved in the
claims are far from binary-rounding boundaries, so the comparisons agree.
Python dicts keyed by strings are modelled as association lists, dict/set
values used as sets are modelled as duplicate-free lists.  Unbounded
Python recursion is modelled with an explicit fuel argument; the fuel
bounds used by the top-level wrappers are proved sufficient where a claim
needs it.
-/

namespace WG

/-- Does the second character list start with the first one? -/
def startsWithL : List Char → List Char → Bool
  | [], _ => true
  | _ :: _, [] => false
  | a :: as, b :: bs => a = b && startsWithL as bs

/-- Is the first character list a contiguous sublist of the second? -/
def infixL (needle : List Char) : List Char → Bool
  | [] => needle.isEmpty
  | hay@(_ :: rest) => startsWithL needle hay || infixL needle rest

/-- Python's `needle in haystack` substring test on strings. -/
def pySubstr (needle haystack : String) : Bool :=
  infixL needle.data haystack.data

/-- Python's `str.upper()`, modelled character-wise (the symbols involved
are ASCII, where the two agree). -/
def pyUpper (s : String) : String :=
  String.mk (s.data.map Char.toUpper)

/-- Python's `a or b` on optional strings: an absent or empty string is
falsy and falls through to the second operand. -/
def pyOrStr (a b : Option String) : Option String :=
  match a with
  | some s => if s.isEmpty then b else some s
  | none => b

/-! ## Risk levels and trust score (`common.py`) -/

/-- `RiskLevel` enum from `common.py` (clean/low/medium/high/critical). -/
inductive RiskLevel where
  | clean
  | low
  | medium
  | high
  | critical
deriving DecidableEq, Repr

/-- The string `value` of each `RiskLevel` enum member. -/
def RiskLevel.value : RiskLevel → String
  | .clean => "clean"
  | .low => "low"
  | .medium => "medium"
  | .high => "high"
  | .critical => "critical"

/-- `RiskLevel.from_score` from `common.py`: convert a numeric score to a
`RiskLevel`, with a "trust" branch (higher is better) and a suspicion
branch (higher is worse). -/
def RiskLevel.from_score (score : ℤ) (score_type : String) : RiskLevel :=
  if score_type = "trust" then
    if score ≥ 90 then .clean
    else if score ≥ 70 then .low
    else if score ≥ 50 then .medium
    else if score ≥ 30 then .high
    else .critical
  else
    if score = 0 then .clean
    else if score < 20 then .low
    else if score < 50 then .medium
    else if score < 80 then .high
    else .critical

/-- `get_risk_level_from_trust_score` from `common.py`. -/
def get_risk_level_from_trust_score (score : ℤ) : String :=
  (RiskLevel.from_score score "trust").value

/-- A suspicious-pattern dict as produced by `detect_suspicious_patterns`
and consumed by `compute_trust_score`.  Python dict keys become optional
fields (`type` is spelled `ptype` because `type` is reserved in Lean);
`Option.none` models an absent key, matching `dict.get` defaults. -/
structure Pattern where
  ptype : Option String := none
  level : Option String := none
  detail : Option String := none
  counterparty : Option String := none
  count : Option ℕ := none
deriving DecidableEq, Repr

/-- One entry of the deductions list returned by `compute_trust_score`. -/
structure Deduction where
  reason : String
  penalty : ℤ
  detail : Option Pattern := none
deriving DecidableEq, Repr

/-- `compute_trust_score` from `common.py`: starts at 100, applies the
concentration, stablecoin-buffer and counterparty deductions, then one
deduction per suspicious pattern, and clamps the result to [0, 100]. -/
def compute_trust_score (concentration stablecoin_ratio : ℚ)
    (counterparty_count : ℕ) (suspicious_patterns : List Pattern) :
    ℤ × List Deduction :=
  let sd0 : ℤ × List Deduction := (100, [])
  let sd1 :=
    if concentration > 8/10 then (sd0.1 - 20, sd0.2 ++ [⟨"high_concentration", 20, none⟩])
    else if concentration > 6/10 then (sd0.1 - 10, sd0.2 ++ [⟨"moderate_concentration", 10, none⟩])
    else sd0
  let sd2 :=
    if stablecoin_ratio < 5/100 then (sd1.1 - 10, sd1.2 ++ [⟨"very_low_stablecoin_buffer", 10, none⟩])
    else if stablecoin_ratio < 1/10 then (sd1.1 - 5, sd1.2 ++ [⟨"low_stablecoin_buffer", 5, none⟩])
    else sd1
  let sd3 :=
    if counterparty_count = 0 then (sd2.1 - 10, sd2.2 ++ [⟨"inactive_or_new_wallet", 10, none⟩])
    else if counterparty_count < 3 then (sd2.1 - 5, sd2.2 ++ [⟨"low_counterparty_diversity", 5, none⟩])
    else sd2
  let sd4 := suspicious_patterns.foldl
    (fun acc p =>
      let level := p.level.getD "low"
      let penalty : ℤ :=
        if level = "critical" then 30
        else if level = "high" then 20
        else if level = "medium" then 10
        else 5
      (acc.1 - penalty, acc.2 ++ [⟨p.ptype.getD "suspicious_pattern", penalty, some p⟩]))
    sd3
  (max 0 (min 100 sd4.1), sd4.2)

/-! ## Pure metric functions (`graph_orchestrator.py`) -/

/-- One balance entry, as returned in the `balances` list.  Amounts are
modelled as rationals (Python coerces with `float(...)`). -/
structure Balance where
  asset : Option String := none
  symbol : Option String := none
  amount : ℚ := 0
deriving DecidableEq, Repr

/-- `compute_concentration`: ratio of the largest balance to the total,
0 when the total is not positive.  Python computes
`max(amounts, default=0.0)`; it is modelled by a fold from 0, which
agrees because when `total > 0` not all amounts are negative. -/
def compute_concentration (balances : List Balance) : ℚ :=
  let total := (balances.map (fun b => b.amount)).sum
  if total ≤ 0 then 0
  else
    let top := (balances.map (fun b => b.amount)).foldl max 0
    top / total

/-- The fixed stablecoin tag allow-list of `compute_stablecoin_ratio`. -/
def STABLE_TAGS : List String := ["USD", "USDT", "USDC", "DAI", "FDUSD"]

/-- `compute_stablecoin_ratio`: fraction of the total held in balances
whose upper-cased symbol contains one of the stablecoin tags. -/
def compute_stablecoin_ratio (balances : List Balance) : ℚ :=
  let total := (balances.map (fun b => b.amount)).sum
  if total ≤ 0 then 0
  else
    let stable := ((balances.filter (fun b =>
        STABLE_TAGS.any (fun tag => pySubstr tag (pyUpper (b.symbol.getD ""))))).map
      (fun b => b.amount)).sum
    stable / total

/-- One transfer entry.  The Python dict keys `to` and `from` are spelled
`toAddr` and `fromAddr` (both are reserved words in Lean). -/
structure Transfer where
  transferaddress : Option String := none
  toAddr : Option String := none
  fromAddr : Option String := none
  timestamp : ℤ := 0
  amount : ℚ := 0
deriving DecidableEq, Repr

/-- The transfer bundle `{"sent": [...], "received": [...]}`. -/
structure Transfers where
  sent : List Transfer := []
  received : List Transfer := []
deriving DecidableEq, Repr

/-- `extract_counterparties`: the set of distinct non-empty counterparty
addresses over sent then received transfers, where the address of a
transfer is `transferaddress or to or from` (Python falsy-or).  The
Python `set` is modelled as a duplicate-free list in first-insertion
order. -/
def extract_counterparties (transfers : Transfers) : List String :=
  (transfers.sent ++ transfers.received).foldl
    (fun acc tx =>
      match pyOrStr tx.transferaddress (pyOrStr tx.toAddr tx.fromAddr) with
      | some addr => if addr.isEmpty then acc else if addr ∈ acc then acc else acc ++ [addr]
      | none => acc)
    []

/-- Stable insertion of a transfer into a timestamp-sorted list (the
element is placed before strictly larger timestamps and after equal
ones encountered later, matching the stability of Python `sorted`). -/
def insertByTs (tx : Transfer) : List Transfer → List Transfer
  | [] => [tx]
  | y :: ys => if tx.timestamp ≤ y.timestamp then tx :: y :: ys else y :: insertByTs tx ys

/-- Stable sort of transfers by `timestamp`, modelling
`sorted(all_txs, key=lambda x: x.get("timestamp", 0))`. -/
def sortByTs : List Transfer → List Transfer
  | [] => []
  | x :: xs => insertByTs x (sortByTs xs)

/-- `detect_suspicious_patterns`: flags one `rapid_transactions` pattern
when some window of 10 consecutive timestamp-sorted transfers spans at
most 300 seconds (first such window, then `break`), and one
`concentrated_activity` pattern per counterparty with more than 20
transfers (in first-occurrence order of `transferaddress`). -/
def detect_suspicious_patterns (transfers : Transfers) : List Pattern :=
  let all_txs := transfers.sent ++ transfers.received
  let rapid : List Pattern :=
    if all_txs.length ≥ 10 then
      let sorted_ts := (sortByTs all_txs).map (fun tx => tx.timestamp)
      match (sorted_ts.zip (sorted_ts.drop 9)).find? (fun w => w.2 - w.1 ≤ 300) with
      | some w => [{ ptype := some "rapid_transactions", level := some "medium",
                     detail := some ("10+ transactions in " ++ toString (w.2 - w.1) ++ "s") }]
      | none => []
    else []
  let cp_addrs := all_txs.foldl (fun acc tx =>
      let addr := tx.transferaddress.getD ""
      if addr.isEmpty then acc else if addr ∈ acc then acc else acc ++ [addr]) []
  let countOf := fun addr => (all_txs.filter (fun tx => tx.transferaddress.getD "" = addr)).length
  let concentrated := (cp_addrs.filter (fun addr => countOf addr > 20)).map
    (fun addr => { ptype := some "concentrated_activity", level := some "medium",
                   counterparty := some addr, count := some (countOf addr) })
  rapid ++ concentrated

/-- `compute_risk_score` from `graph_orchestrator.py`: delegates to the
canonical `compute_trust_score` in `common.py`. -/
def compute_risk_score (concentration stablecoin_ratio : ℚ)
    (counterparty_count : ℕ) (suspicious_patterns : List Pattern) :
    ℤ × List Deduction :=
  compute_trust_score concentration stablecoin_ratio counterparty_count suspicious_patterns

/-! ## Claim C2: the fixed end-to-end metric scenario -/

/-- Balances of the C2 scenario: GAS 120.5, NEO 50, USDT 15. -/
def c2Balances : List Balance :=
  [ { symbol := some "GAS", amount := 241/2 },
    { symbol := some "NEO", amount := 50 },
    { symbol := some "USDT", amount := 15 } ]

/-- Transfers of the C2 scenario: sent 10 GAS to X and 25 GAS to Y,
received 30 GAS from Y, inside the 30-day window. -/
def c2Transfers : Transfers :=
  { sent := [ { transferaddress := some "X", amount := 10 },
              { transferaddress := some "Y", amount := 25 } ],
    received := [ { transferaddress := some "Y", amount := 30 } ] }

/-- Evaluation of the concentration metric on the C2 balances. -/
lemma c2_conc_eval : compute_concentration c2Balances = 241/371 := by
  norm_num [compute_concentration, c2Balances, max_def]

/-- Evaluation of the stablecoin ratio on the C2 balances. -/
lemma c2_ratio_eval : compute_stablecoin_ratio c2Balances = 30/371 := by
  have hf : List.filter (fun b => STABLE_TAGS.any
      (fun tag => pySubstr tag (pyUpper (b.symbol.getD "")))) c2Balances =
      [{ asset := none, symbol := some "USDT", amount := 15 }] := rfl
  simp only [compute_stablecoin_ratio, hf]
  norm_num [c2Balances]

/-- The C2 transfers have exactly two counterparties (X and Y). -/
lemma c2_cp_len : (extract_counterparties c2Transfers).length = 2 := by
  rfl

/-- The C2 transfers trigger no suspicious pattern. -/
lemma c2_patterns_eval : detect_suspicious_patterns c2Transfers = [] := by
  rfl

/-- Evaluation of the trust score on the C2 metric values. -/
lemma c2_score_eval : compute_trust_score (241/371) (30/371) 2 [] =
    (80, [⟨"moderate_concentration", 10, none⟩,
          ⟨"low_stablecoin_buffer", 5, none⟩,
          ⟨"low_counterparty_diversity", 5, none⟩]) := by
  norm_num [compute_trust_score]

/-- C2 counterexample: on the scenario inputs the code produces a trust
score of 80 (three deductions), not the claimed 85. -/
theorem c2_trust_score_is_80_not_85 :
    (compute_trust_score (compute_concentration c2Balances)
      (compute_stablecoin_ratio c2Balances)
      (extract_counterparties c2Transfers).length
      (detect_suspicious_patterns c2Transfers)).1 = 80 ∧ (80 : ℤ) ≠ 85 := by
  rw [c2_conc_eval, c2_ratio_eval, c2_cp_len, c2_patterns_eval, c2_score_eval]
  exact ⟨rfl, by decide⟩

/-- C2 (amended): the scenario yields concentration 241/371 (≈ 0.650),
stablecoin ratio 30/371 (≈ 0.0809), 2 counterparties, no suspicious
patterns, a trust score of 80 with deductions −10 moderate
concentration, −5 low stablecoin buffer, −5 low counterparty diversity,
and risk level "low". -/
theorem c2_scenario_amended :
    compute_concentration c2Balances = 241/371 ∧
    compute_stablecoin_ratio c2Balances = 30/371 ∧
    (extract_counterparties c2Transfers).length = 2 ∧
    detect_suspicious_patterns c2Transfers = [] ∧
    compute_trust_score (241/371) (30/371) 2 [] =
      (80, [⟨"moderate_concentration", 10, none⟩,
            ⟨"low_stablecoin_buffer", 5, none⟩,
            ⟨"low_counterparty_diversity", 5, none⟩]) ∧
    get_risk_level_from_trust_score 80 = "low" :=
  ⟨c2_conc_eval, c2_ratio_eval, c2_cp_len, c2_patterns_eval,
    c2_score_eval, rfl⟩

/-! ## Claim C6: trust-score determinism on the fixed input -/

/-- Evaluation of the trust score on the C6 fixed inputs. -/
lemma c6_score_eval : compute_trust_score (9/10) (2/100) 0 [] =
    (60, [⟨"high_concentration", 20, none⟩,
          ⟨"very_low_stablecoin_buffer", 10, none⟩,
          ⟨"inactive_or_new_wallet", 10, none⟩]) := by
  norm_num [compute_trust_score]

/-- C6 counterexample: at score 60 the code returns risk-level string
"medium" (the value of `RiskLevel.MEDIUM`), not "moderate". -/
theorem c6_level_is_medium_not_moderate :
    get_risk_level_from_trust_score
      (compute_trust_score (9/10) (2/100) 0 []).1 = "medium" ∧
    ("medium" : String) ≠ "moderate" := by
  rw [c6_score_eval]
  exact ⟨rfl, by decide⟩

/-- C6 (amended): the fixed inputs give exactly 100 − 20 − 10 − 10 = 60,
and the ≥50 band of `RiskLevel.from_score` names the level "medium". -/
theorem c6_score_60_level_medium :
    compute_trust_score (9/10) (2/100) 0 [] =
      (60, [⟨"high_concentration", 20, none⟩,
            ⟨"very_low_stablecoin_buffer", 10, none⟩,
            ⟨"inactive_or_new_wallet", 10, none⟩]) ∧
    get_risk_level_from_trust_score 60 = "medium" :=
  ⟨c6_score_eval, rfl⟩

/-! ## Claim C10: algebraic shape of the trust score -/

/-- The penalty assigned to a suspicious pattern by the per-pattern loop
of `compute_trust_score` (missing level defaults to "low"). -/
def patternPenalty (p : Pattern) : ℤ :=
  let level := p.level.getD "low"
  if level = "critical" then 30
  else if level = "high" then 20
  else if level = "medium" then 10
  else 5

/-- The deduction entry appended for a suspicious pattern. -/
def patternDeduction (p : Pattern) : Deduction :=
  ⟨p.ptype.getD "suspicious_pattern", patternPenalty p, some p⟩

/-- Closed form for the per-pattern fold of `compute_trust_score`. -/
lemma trust_fold_eval (ps : List Pattern) (sd : ℤ × List Deduction) :
    ps.foldl (fun acc p =>
      let level := p.level.getD "low"
      let penalty : ℤ :=
        if level = "critical" then 30
        else if level = "high" then 20
        else if level = "medium" then 10
        else 5
      (acc.1 - penalty, acc.2 ++ [⟨p.ptype.getD "suspicious_pattern", penalty, some p⟩])) sd
    = (sd.1 - (ps.map patternPenalty).sum, sd.2 ++ ps.map patternDeduction) := by
  induction ps generalizing sd with
  | nil => simp
  | cons p ps ih =>
    simp only [List.foldl_cons, ih, List.map_cons, List.sum_cons]
    refine Prod.ext ?_ ?_
    · simp [patternPenalty]
      ring
    · simp [patternDeduction, patternPenalty]

/-- Penalties of the mapped pattern deductions are the pattern penalties. -/
lemma map_patternDeduction_penalty :
    ((fun d => d.penalty) ∘ patternDeduction) = patternPenalty :=
  funext fun _ => rfl

/-- A pattern whose (defaulted) level is not critical/high/medium gets
the low-severity penalty 5. -/
lemma patternPenalty_unrec (p : Pattern)
    (h : p.level.getD "low" ∉ (["critical", "high", "medium"] : List String)) :
    patternPenalty p = 5 := by
  simp only [List.mem_cons, List.mem_singleton, not_or] at h
  obtain ⟨h1, h2, h3⟩ := h
  simp [patternPenalty, h1, h2, h3]

/-- C10: for every input, the returned score is the clamp to [0, 100] of
100 minus the sum of the penalties in the returned deductions list, the
score lies in [0, 100], and every pattern whose level is missing or not
one of critical/high/medium contributes a deduction of exactly 5. -/
theorem c10_trust_score_clamped_sum (c r : ℚ) (k : ℕ) (ps : List Pattern) :
    (compute_trust_score c r k ps).1 =
      max 0 (min 100 (100 - (((compute_trust_score c r k ps).2).map
        (fun d => d.penalty)).sum)) ∧
    0 ≤ (compute_trust_score c r k ps).1 ∧
    (compute_trust_score c r k ps).1 ≤ 100 ∧
    ∀ p ∈ ps, p.level.getD "low" ∉ (["critical", "high", "medium"] : List String) →
      ∃ d ∈ (compute_trust_score c r k ps).2, d.detail = some p ∧ d.penalty = 5 := by
  have hmain : (compute_trust_score c r k ps).1 =
      max 0 (min 100 (100 - (((compute_trust_score c r k ps).2).map
        (fun d => d.penalty)).sum)) ∧
      ∀ p ∈ ps, p.level.getD "low" ∉ (["critical", "high", "medium"] : List String) →
        ∃ d ∈ (compute_trust_score c r k ps).2, d.detail = some p ∧ d.penalty = 5 := by
    simp only [compute_trust_score, trust_fold_eval]
    split_ifs <;>
      exact ⟨congrArg (fun t => max 0 (min 100 t))
          (by simp [map_patternDeduction_penalty]; try ring),
        fun p hp hl => ⟨patternDeduction p,
          List.mem_append_right _ (List.mem_map_of_mem _ hp), rfl,
          patternPenalty_unrec p hl⟩⟩
  refine ⟨hmain.1, ?_, ?_, hmain.2⟩
  · rw [hmain.1]; exact le_max_left _ _
  · rw [hmain.1]
    exact max_le (by norm_num) (le_trans (min_le_left _ _) le_rfl)

/-- Witness for C10 at concrete inputs with one unrecognized-level
pattern: the clamp identity, the [0, 100] bounds, and the 5-point
deduction recorded for the pattern. -/
theorem c10_trust_score_clamped_sum_witness :
    (compute_trust_score (1/2) (1/2) 5
        [⟨some "odd", some "weird", none, none, none⟩]).1 =
      max 0 (min 100 (100 - (((compute_trust_score (1/2) (1/2) 5
        [⟨some "odd", some "weird", none, none, none⟩]).2).map
          (fun d => d.penalty)).sum)) ∧
    0 ≤ (compute_trust_score (1/2) (1/2) 5
        [⟨some "odd", some "weird", none, none, none⟩]).1 ∧
    (compute_trust_score (1/2) (1/2) 5
        [⟨some "odd", some "weird", none, none, none⟩]).1 ≤ 100 ∧
    ∃ d ∈ (compute_trust_score (1/2) (1/2) 5
        [⟨some "odd", some "weird", none, none, none⟩]).2,
      d.detail = some ⟨some "odd", some "weird", none, none, none⟩ ∧
      d.penalty = 5 := by
  obtain ⟨h1, h2, h3, h4⟩ := c10_trust_score_clamped_sum (1/2) (1/2) 5
    [⟨some "odd", some "weird", none, none, none⟩]
  exact ⟨h1, h2, h3, h4 _ (List.mem_singleton_self _) (by decide)⟩

/-! ## The TTL cache (`WalletDataCache`)

The cache maps string keys to `(data, timestamp)` pairs.  Timestamps and
TTLs are rationals (Python uses `time.time()` floats and integer TTLs).
The `md5(...).hexdigest()` step of `_make_key` is modelled as the
identity on its pre-image string `"{operation}:{param_str}"`: it is a
deterministic injective-in-practice key derivation whose only role is to
give identical requests identical keys. -/

/-- Insert a key-value parameter into a list sorted by key. -/
def insertParam (p : String × String) : List (String × String) → List (String × String)
  | [] => [p]
  | q :: qs => if p.1 < q.1 then p :: q :: qs else q :: insertParam p qs

/-- Sort keyword parameters by key, modelling `sorted(params.items())`
(kwargs keys are unique, so comparing keys is enough). -/
def sortParams : List (String × String) → List (String × String)
  | [] => []
  | p :: ps => insertParam p (sortParams ps)

/-- `WalletDataCache._make_key`: a deterministic key derived from the
operation name and the sorted parameter list. -/
def make_key (operation : String) (params : List (String × String)) : String :=
  let param_str := String.intercalate "|" ((sortParams params).map (fun kv => kv.1 ++ "=" ++ kv.2))
  operation ++ ":" ++ param_str

/-- The in-memory cache: an association list from keys to
`(data, storedAt)` entries, with unique keys maintained by `set`. -/
structure WalletDataCache (α : Type) where
  entries : List (String × α × ℚ) := []

/-- Raw lookup of a cache key. -/
def cacheFind {α : Type} (c : WalletDataCache α) (key : String) : Option (α × ℚ) :=
  (c.entries.find? (fun e => e.1 == key)).map (fun e => e.2)

/-- `WalletDataCache.get`: return the cached data if it is fresh
(`now - timestamp < ttl`); a stale entry is deleted and treated as
absent.  Returns the value read and the possibly-updated cache. -/
def WalletDataCache.get {α : Type} (c : WalletDataCache α) (operation : String)
    (now ttl : ℚ) (params : List (String × String)) :
    Option α × WalletDataCache α :=
  let key := make_key operation params
  match cacheFind c key with
  | some dt =>
      if now - dt.2 < ttl then (some dt.1, c)
      else (none, ⟨c.entries.filter (fun e => e.1 != key)⟩)
  | none => (none, c)

/-- `WalletDataCache.set`: store data under the derived key with the
current timestamp (replacing any previous entry for the key). -/
def WalletDataCache.set {α : Type} (c : WalletDataCache α) (operation : String)
    (data : α) (now : ℚ) (params : List (String × String)) : WalletDataCache α :=
  let key := make_key operation params
  ⟨if c.entries.any (fun e => e.1 == key) then
      c.entries.map (fun e => if e.1 == key then (key, data, now) else e)
    else
      c.entries ++ [(key, data, now)]⟩

/-- `WalletDataCache.invalidate`: with an address, delete every entry
whose cached value renders to a string containing the address
(Python keeps keys `k` with `address in str(self._cache[k])` false);
with `None` (or the falsy empty string), clear the whole cache.
`render` models Python's builtin `str` on the stored
`(data, timestamp)` pair. -/
def WalletDataCache.invalidate {α : Type} (c : WalletDataCache α)
    (render : α → ℚ → String) (address : Option String) : WalletDataCache α :=
  match address with
  | some a =>
      if a.isEmpty then ⟨[]⟩
      else ⟨c.entries.filter (fun e => !(pySubstr a (render e.2.1 e.2.2)))⟩
  | none => ⟨[]⟩

/-- Appending a fresh key at the end of a key-free list makes it the
first (and only) match. -/
lemma find?_append_key {α : Type} (es : List (String × α × ℚ)) (key : String)
    (v : α) (t0 : ℚ) (h : es.any (fun e => e.1 == key) = false) :
    ((es ++ [(key, v, t0)]).find? (fun e => e.1 == key)) = some (key, v, t0) := by
  induction es with
  | nil => simp
  | cons e es ih =>
    rw [List.any_cons, Bool.or_eq_false_iff] at h
    rw [List.cons_append, List.find?_cons_of_neg _ (by simp [h.1])]
    exact ih h.2

/-- Replacing the entry of an existing key makes the key map to the new
data in the first matching position. -/
lemma find?_map_replace {α : Type} (es : List (String × α × ℚ)) (key : String)
    (v : α) (t0 : ℚ) (h : es.any (fun e => e.1 == key) = true) :
    ((es.map (fun e => if e.1 == key then (key, v, t0) else e)).find?
      (fun e => e.1 == key)) = some (key, v, t0) := by
  induction es with
  | nil => simp at h
  | cons e es ih =>
    rw [List.any_cons, Bool.or_eq_true_iff] at h
    cases hk : (e.1 == key) with
    | true =>
      rw [List.map_cons, if_pos hk, List.find?_cons_of_pos _ (by simp)]
    | false =>
      rw [List.map_cons, if_neg (by simp [hk]),
        List.find?_cons_of_neg _ (by simp [hk])]
      exact ih (h.resolve_left (by simp [hk]))

/-- After `set`, the derived key maps to the new data and timestamp. -/
lemma cacheFind_set {α : Type} (c : WalletDataCache α) (op : String) (v : α)
    (t0 : ℚ) (params : List (String × String)) :
    cacheFind (WalletDataCache.set c op v t0 params) (make_key op params) =
      some (v, t0) := by
  show Option.map (fun e => e.2) (List.find? (fun e => e.1 == make_key op params)
    (if c.entries.any (fun e => e.1 == make_key op params) then
        c.entries.map (fun e =>
          if e.1 == make_key op params then (make_key op params, v, t0) else e)
      else c.entries ++ [(make_key op params, v, t0)])) = some (v, t0)
  cases h : (c.entries.any (fun e => e.1 == make_key op params)) with
  | true => rw [if_pos rfl, find?_map_replace _ _ _ _ h]; rfl
  | false => rw [if_neg (by simp), find?_append_key _ _ _ _ h]; rfl

/-- A key never survives the filter that deletes it. -/
lemma cacheFind_filter_ne {α : Type} (es : List (String × α × ℚ)) (key : String) :
    ((es.filter (fun e => e.1 != key)).find? (fun e => e.1 == key)) = none := by
  induction es with
  | nil => rfl
  | cons e es ih =>
    cases hk : (e.1 == key) with
    | true => rw [List.filter_cons_of_neg (by simpa using hk)]; exact ih
    | false =>
      rw [List.filter_cons_of_pos (by simpa using hk),
        List.find?_cons_of_neg _ (by simp [hk])]
      exact ih

/-- C8: after `set` stores a value at time `t0`, a `get` with TTL `T`
returns the value at any time `t` with `t - t0 < T`, and at any time
with `t - t0 ≥ T` returns nothing and evicts the entry. -/
theorem c8_cache_ttl {α : Type} (c : WalletDataCache α) (op : String)
    (params : List (String × String)) (v : α) (t0 t T : ℚ) :
    (t - t0 < T →
      ((WalletDataCache.set c op v t0 params).get op t T params).1 = some v) ∧
    (T ≤ t - t0 →
      ((WalletDataCache.set c op v t0 params).get op t T params).1 = none ∧
      cacheFind ((WalletDataCache.set c op v t0 params).get op t T params).2
        (make_key op params) = none) := by
  constructor
  · intro h
    simp [WalletDataCache.get, cacheFind_set, h]
  · intro h
    have hnot : ¬ (t - t0 < T) := not_lt.mpr h
    refine ⟨?_, ?_⟩
    · simp [WalletDataCache.get, cacheFind_set, hnot]
    · simp only [WalletDataCache.get, cacheFind_set, hnot, if_false]
      simp [cacheFind, cacheFind_filter_ne]

/-- C8 witness at concrete inputs: value stored at time 0 with TTL 60 is
returned at time 30 and is gone (entry evicted) at time 60. -/
theorem c8_cache_ttl_witness :
    (((WalletDataCache.set (⟨[]⟩ : WalletDataCache String) "balances" "data" 0
        [("address", "N1")]).get "balances" 30 60 [("address", "N1")]).1 = some "data") ∧
    (((WalletDataCache.set (⟨[]⟩ : WalletDataCache String) "balances" "data" 0
        [("address", "N1")]).get "balances" 60 60 [("address", "N1")]).1 = none) :=
  ⟨(c8_cache_ttl (⟨[]⟩ : WalletDataCache String) "balances" [("address", "N1")]
      "data" 0 30 60).1 (by norm_num),
   ((c8_cache_ttl (⟨[]⟩ : WalletDataCache String) "balances" [("address", "N1")]
      "data" 0 60 60).2 (by norm_num)).1⟩

/-! ## Claim C7: invalidation by address -/

/-- The cache of the C7 counterexample: one entry whose key is derived
from parameters containing the address NADDR, but whose cached value
renders to the string "[]" (an empty balance list). -/
def c7Cache : WalletDataCache String :=
  WalletDataCache.set (⟨[]⟩ : WalletDataCache String) "balances" "[]" 0
    [("address", "NADDR")]

/-- C7 counterexample: `invalidate("NADDR")` does not remove the entry
whose key was derived from a parameter set containing NADDR, because the
code greps the rendered cached value, not the key parameters. -/
theorem c7_invalidate_misses_address_key :
    (c7Cache.invalidate (fun v _ => v) (some "NADDR")).entries = c7Cache.entries ∧
    cacheFind (c7Cache.invalidate (fun v _ => v) (some "NADDR"))
      (make_key "balances" [("address", "NADDR")]) = some ("[]", 0) := by
  constructor
  · rfl
  · rfl

/-- C7 (amended): `invalidate(address)` keeps exactly the entries whose
rendered value does not contain the address as a substring, and
`invalidate()` with no argument clears everything. -/
theorem c7_invalidate_by_value (α : Type) (render : α → ℚ → String)
    (a : String) (ha : ¬ a.isEmpty = true) (c : WalletDataCache α) :
    (∀ e, e ∈ (c.invalidate render (some a)).entries ↔
      e ∈ c.entries ∧ pySubstr a (render e.2.1 e.2.2) = false) ∧
    (c.invalidate render none).entries = [] := by
  constructor
  · intro e
    simp [WalletDataCache.invalidate, ha, List.mem_filter]
  · rfl

/-- C7 amended-claim witness: concretely, invalidating by the address
keeps an entry whose rendered value lacks the address and drops one
whose rendered value contains it. -/
theorem c7_invalidate_by_value_witness :
    (("k1", "no-match", (0 : ℚ)) ∈
      ((⟨[("k1", "no-match", 0), ("k2", "xNADDRx", 0)]⟩ : WalletDataCache String).invalidate
        (fun v _ => v) (some "NADDR")).entries ↔
      (("k1", "no-match", (0 : ℚ)) ∈
        ([("k1", "no-match", 0), ("k2", "xNADDRx", 0)] : List (String × String × ℚ)) ∧
        pySubstr "NADDR" "no-match" = false)) ∧
    ((⟨[("k1", "no-match", 0), ("k2", "xNADDRx", 0)]⟩ : WalletDataCache String).invalidate
      (fun v _ => v) none).entries = [] :=
  ⟨(c7_invalidate_by_value String (fun v _ => v) "NADDR" (by decide)
      ⟨[("k1", "no-match", 0), ("k2", "xNADDRx", 0)]⟩).1 ("k1", "no-match", 0),
   (c7_invalidate_by_value String (fun v _ => v) "NADDR" (by decide)
      ⟨[("k1", "no-match", 0), ("k2", "xNADDRx", 0)]⟩).2⟩

/-! ## The computation-graph engine (`ComputationGraph`)

The engine is polymorphic in the node-result data type `α` (Python is
untyped).  Compute functions receive the shared request context and a
lookup of the dependency results, and return `Except String α`,
modelling a Python return value or a raised exception message.

`_execute_node` catches every exception of the compute function and
turns it into a `FAILED` `ComputationResult`; consequently
`asyncio.gather(..., return_exceptions=True)` never returns an
`Exception` instance to `execute`, the `isinstance(result, Exception)`
halt branch of `execute` is unreachable for compute failures, and every
scheduled batch runs to completion with all its results recorded.  The
model below reflects that actual behaviour.

Wall-clock fields (`duration_ms`, and the `time.time()` start stamps)
are not modelled.  Unbounded Python recursion in the two depth-first
traversals is modelled with a fuel argument; the fuel `topoFuel` used by
the wrappers exceeds the recursion depth, which is bounded by the number
of identifiers. -/

/-- `NodeState` from `graph_orchestrator.py`. -/
inductive NodeState where
  | pending
  | running
  | completed
  | failed
  | skipped
deriving DecidableEq, Repr

/-- The shared request context passed to all compute functions. -/
structure Ctx where
  address : String
  lookback_days : ℤ
deriving DecidableEq, Repr

/-- `ComputationResult` (without the wall-clock `duration_ms`). -/
structure ComputationResult (α : Type) where
  node_id : String
  state : NodeState
  data : Option α := none
  error : Option String := none
  dependencies_used : List String := []
deriving DecidableEq, Repr

/-- `ComputationNode`: id, display name, compute function, dependency id
set (modelled as a list), and the `required` flag.  The mutable `state`
and `result` fields of the Python dataclass are never updated by the
engine (all outcomes are recorded in the results dict), so they are
omitted. -/
structure ComputationNode (α : Type) where
  id : String
  name : String
  compute_fn : Ctx → (String → Option (ComputationResult α)) → Except String α
  dependencies : List String := []
  required : Bool := true

/-- `ComputationGraph`: the node dict, modelled as a list in insertion
order with unique ids (Python dict semantics). -/
structure ComputationGraph (α : Type) where
  nodes : List (ComputationNode α) := []

/-- Abstract error kinds of §7 of the specification: `CycleError` is the
`ValueError("Graph contains cycles - not a valid DAG")` raised by
`_topological_sort`, and `UnresolvableDependencyError` is the
`ValueError("Unable to resolve dependencies - possible cycle")` raised
by `get_parallel_batches`. -/
inductive GraphError where
  | cycleError
  | unresolvableDependencyError
deriving DecidableEq, Repr

/-- `add_node`: insert (or overwrite, Python-dict style) a node. -/
def ComputationGraph.add_node {α : Type} (g : ComputationGraph α)
    (node_id nodeName : String)
    (compute_fn : Ctx → (String → Option (ComputationResult α)) → Except String α)
    (dependencies : List String) (required : Bool) : ComputationGraph α :=
  let node : ComputationNode α :=
    { id := node_id, name := nodeName, compute_fn := compute_fn,
      dependencies := dependencies, required := required }
  ⟨if g.nodes.any (fun n => n.id == node_id) then
      g.nodes.map (fun n => if n.id == node_id then node else n)
    else g.nodes ++ [node]⟩

/-- Dict lookup `self.nodes.get(node_id)`. -/
def findNode {α : Type} (g : ComputationGraph α) (nid : String) :
    Option (ComputationNode α) :=
  g.nodes.find? (fun n => n.id == nid)

/-- The dependency list of a node id (empty when the id is absent,
matching `self.nodes.get(node_id, ComputationNode("", "", ...))`). -/
def depsOf {α : Type} (g : ComputationGraph α) (nid : String) : List String :=
  ((findNode g nid).map (fun n => n.dependencies)).getD []

/-- The `required` flag of a node id.  The `False` default is never
reached where the engine reads it (the id always names a node there). -/
def requiredOf {α : Type} (g : ComputationGraph α) (nid : String) : Bool :=
  ((findNode g nid).map (fun n => n.required)).getD false

/-- `node_id in self.nodes`. -/
def presentB {α : Type} (g : ComputationGraph α) (nid : String) : Bool :=
  (findNode g nid).isSome

/-- The node ids in insertion order. -/
def nodeIds {α : Type} (g : ComputationGraph α) : List String :=
  g.nodes.map (fun n => n.id)

/-- Every identifier a depth-first traversal can ever visit: node ids
and all dependency ids. -/
def allIds {α : Type} (g : ComputationGraph α) : List String :=
  nodeIds g ++ (g.nodes.map (fun n => n.dependencies)).flatten

/-- Fuel exceeding the depth of any traversal of the graph. -/
def topoFuel {α : Type} (g : ComputationGraph α) : ℕ :=
  (allIds g).length + 1

/-- The dependency loop of `has_cycle`: skip ids not in the graph,
recurse (through the callback `rec`, which closes over the extended
recursion stack) into unvisited ones, propagating a found cycle
immediately, and report a cycle when a visited dependency is on the
recursion stack. -/
def hasCycleDeps {α : Type} (g : ComputationGraph α)
    (rec : String → List String → Bool × List String) (stack : List String) :
    List String → List String → Bool × List String
  | [], visited => (false, visited)
  | d :: ds, visited =>
      if presentB g d then
        if d ∈ visited then
          if d ∈ stack then (true, visited)
          else hasCycleDeps g rec stack ds visited
        else
          let r := rec d visited
          if r.1 then (true, r.2)
          else hasCycleDeps g rec stack ds r.2
      else hasCycleDeps g rec stack ds visited

/-- The recursive `has_cycle(node_id)` of `_validate_dag`: mark the node
visited, push it on the recursion stack and scan its dependencies.  The
fuel-exhaustion result `(true, visited)` is unreachable at the fuel used
by `validate_dag` (the recursion depth is bounded by the unvisited
identifiers). -/
def hasCycleFrom {α : Type} (g : ComputationGraph α) :
    ℕ → List String → String → List String → Bool × List String
  | 0, _, _, visited => (true, visited)
  | fuel + 1, stack, nid, visited =>
      hasCycleDeps g (fun d v => hasCycleFrom g fuel (nid :: stack) d v)
        (nid :: stack) (depsOf g nid) (nid :: visited)

/-- The root loop of `_validate_dag`: run `has_cycle` from every not yet
visited node id, sharing the visited set; return `false` as soon as a
cycle is found. -/
def validateAux {α : Type} (g : ComputationGraph α) :
    List String → List String → Bool
  | [], _ => true
  | nid :: rest, visited =>
      if nid ∈ visited then validateAux g rest visited
      else
        let r := hasCycleFrom g (topoFuel g) [] nid visited
        if r.1 then false else validateAux g rest r.2

/-- `_validate_dag`. -/
def validate_dag {α : Type} (g : ComputationGraph α) : Bool :=
  validateAux g (nodeIds g) []

/-- The dependency loop of `visit`, recursing through the callback. -/
def visitList (rec : String → List String × List String → List String × List String) :
    List String → List String × List String → List String × List String
  | [], s => s
  | d :: ds, s => visitList rec ds (rec d s)

/-- The recursive `visit(node_id)` of `_topological_sort` on the state
`(visited, order)`: ids already visited are skipped; ids absent from the
graph are marked visited but not appended; a present node is appended
after all its dependencies have been visited.  The fuel-exhaustion
branch is unreachable at the fuel used by `topological_sort`. -/
def visitT {α : Type} (g : ComputationGraph α) :
    ℕ → String → List String × List String → List String × List String
  | 0, _, s => s
  | fuel + 1, nid, s =>
      if nid ∈ s.1 then s
      else
        match findNode g nid with
        | none => (nid :: s.1, s.2)
        | some node =>
            let s' := visitList (fun d t => visitT g fuel d t)
              node.dependencies (nid :: s.1, s.2)
            (s'.1, s'.2 ++ [nid])

/-- The root loop of `_topological_sort` over the node ids. -/
def topoAux {α : Type} (g : ComputationGraph α) :
    List String → List String × List String → List String × List String
  | [], s => s
  | nid :: rest, s => topoAux g rest (visitT g (topoFuel g) nid s)

/-- `_topological_sort`: raises `CycleError` when `_validate_dag` fails,
otherwise returns the DFS post-order of the node ids. -/
def topological_sort {α : Type} (g : ComputationGraph α) :
    Except GraphError (List String) :=
  if validate_dag g then .ok (topoAux g (nodeIds g) ([], [])).2
  else .error .cycleError

/-- The batch loop of `get_parallel_batches`: repeatedly collect the
remaining ids whose dependencies are all completed.  An empty batch with
ids remaining raises `UnresolvableDependencyError`.  The Python
`remaining` set is modelled as a sublist of the topological order (set
iteration order is arbitrary; only the batch contents matter). -/
def batchesAux {α : Type} (g : ComputationGraph α) :
    ℕ → List String → List String → Except GraphError (List (List String))
  | 0, remaining, _ =>
      if remaining.isEmpty then .ok [] else .error .unresolvableDependencyError
  | fuel + 1, remaining, completed =>
      if remaining.isEmpty then .ok []
      else
        let batch := remaining.filter (fun nid =>
          (depsOf g nid).all (fun d => d ∈ completed))
        if batch.isEmpty then .error .unresolvableDependencyError
        else do
          let rest ← batchesAux g fuel (remaining.filter (fun nid => nid ∉ batch))
            (completed ++ batch)
          .ok (batch :: rest)

/-- `get_parallel_batches`. -/
def get_parallel_batches {α : Type} (g : ComputationGraph α) :
    Except GraphError (List (List String)) := do
  let topo ← topological_sort g
  batchesAux g (topo.length + 1) topo []

/-- Lookup in the results dict. -/
def lookupRes {α : Type} (results : List (String × ComputationResult α))
    (nid : String) : Option (ComputationResult α) :=
  (results.find? (fun r => r.1 == nid)).map (fun r => r.2)

/-- `_execute_node`: if some dependency has a recorded `FAILED` result
and that dependency is `required`, return a `SKIPPED` result naming it;
otherwise run the compute function, returning a `COMPLETED` result with
its value or a `FAILED` result with the caught exception message. -/
def executeNode {α : Type} (g : ComputationGraph α)
    (results : List (String × ComputationResult α)) (ctx : Ctx)
    (node : ComputationNode α) : ComputationResult α :=
  let dep_results : String → Option (ComputationResult α) := fun d =>
    if d ∈ node.dependencies then lookupRes results d else none
  match node.dependencies.find? (fun d =>
      match lookupRes results d with
      | some r => r.state == NodeState.failed && requiredOf g d
      | none => false) with
  | some d =>
      { node_id := node.id, state := .skipped,
        error := some ("Dependency " ++ d ++ " failed") }
  | none =>
      match node.compute_fn ctx dep_results with
      | .ok v =>
          { node_id := node.id, state := .completed, data := some v,
            dependencies_used := node.dependencies }
      | .error e =>
          { node_id := node.id, state := .failed, error := some e }

/-- One batch of `execute`: all nodes of the batch run against the
results recorded before the batch (their dependencies are in earlier
batches), and all their results are then recorded. -/
def executeBatch {α : Type} (g : ComputationGraph α) (ctx : Ctx)
    (results : List (String × ComputationResult α)) (batch : List String) :
    List (String × ComputationResult α) :=
  results ++ batch.filterMap (fun nid =>
    (findNode g nid).map (fun node => (nid, executeNode g results ctx node)))

/-- `execute`: compute the parallel batches (propagating `CycleError` or
`UnresolvableDependencyError` before any node runs) and run them in
order, accumulating the results dict. -/
def ComputationGraph.execute {α : Type} (g : ComputationGraph α) (ctx : Ctx) :
    Except GraphError (List (String × ComputationResult α)) := do
  let batches ← get_parallel_batches g
  .ok (batches.foldl (executeBatch g ctx) [])

/-! ## Concrete graphs for claims C1, C3 and C5 -/

/-- A fixed request context used in the concrete executions. -/
def exCtx : Ctx := ⟨"NExampleAddr", 30⟩

/-- A three-node chain A ← B ← C where the required root A fails. -/
def chainGraph : ComputationGraph ℕ :=
  ⟨[ { id := "A", name := "node A", compute_fn := fun _ _ => .error "boom" },
     { id := "B", name := "node B", compute_fn := fun _ _ => .ok 1,
       dependencies := ["A"] },
     { id := "C", name := "node C", compute_fn := fun _ _ => .ok 2,
       dependencies := ["B"] } ]⟩

/-- A graph with a required failing node A, an independent node E in the
same batch, and a node F depending only on E in the next batch. -/
def haltGraph : ComputationGraph ℕ :=
  ⟨[ { id := "A", name := "node A", compute_fn := fun _ _ => .error "boom" },
     { id := "E", name := "node E", compute_fn := fun _ _ => .ok 1 },
     { id := "F", name := "node F", compute_fn := fun _ _ => .ok 2,
       dependencies := ["E"] } ]⟩

/-- The two-node cycle of claim C5: A depends on B and B depends on A. -/
def cycGraph : ComputationGraph ℕ :=
  ⟨[ { id := "A", name := "node A", compute_fn := fun _ _ => .ok 0,
       dependencies := ["B"] },
     { id := "B", name := "node B", compute_fn := fun _ _ => .ok 0,
       dependencies := ["A"] } ]⟩

/-- C1 counterexample: in the chain A ← B ← C with required A failing,
the direct dependent B is skipped, but the transitive dependent C is
executed and completes — it is not recorded as skipped. -/
theorem c1_transitive_dependent_executes :
    requiredOf chainGraph "A" = true ∧
    chainGraph.execute exCtx = .ok
      [("A", { node_id := "A", state := .failed, error := some "boom" }),
       ("B", { node_id := "B", state := .skipped,
               error := some "Dependency A failed" }),
       ("C", { node_id := "C", state := .completed, data := some 2,
               dependencies_used := ["B"] })] ∧
    NodeState.completed ≠ NodeState.skipped := by
  refine ⟨rfl, rfl, by decide⟩

/-- C3 (code bug): the batch partition of `haltGraph` is [[A, E], [F]];
the required node A fails in batch 0, yet the later batch still starts
and F completes, while both batch-0 results are preserved.  The
`isinstance(result, Exception)` halt branch of `execute` (commented
"Stop execution if required node fails") is unreachable because
`_execute_node` converts every compute exception into a FAILED result. -/
theorem c3_no_halt_after_required_failure :
    get_parallel_batches haltGraph = .ok [["A", "E"], ["F"]] ∧
    requiredOf haltGraph "A" = true ∧
    haltGraph.execute exCtx = .ok
      [("A", { node_id := "A", state := .failed, error := some "boom" }),
       ("E", { node_id := "E", state := .completed, data := some 1 }),
       ("F", { node_id := "F", state := .completed, data := some 2,
               dependencies_used := ["E"] })] := by
  refine ⟨rfl, rfl, rfl⟩

/-! ## List utilities for the graph proofs -/

/-- A filter by a pointwise-stronger predicate is at most as long. -/
lemma filter_length_mono {β : Type} (p q : β → Bool)
    (h : ∀ a, p a = true → q a = true) (l : List β) :
    (l.filter p).length ≤ (l.filter q).length := by
  induction l with
  | nil => simp
  | cons x xs ih =>
    by_cases hp : p x = true
    · rw [List.filter_cons_of_pos hp, List.filter_cons_of_pos (h x hp)]
      simpa using ih
    · rw [List.filter_cons_of_neg (by simpa using hp)]
      by_cases hq : q x = true
      · rw [List.filter_cons_of_pos hq]
        exact le_trans ih (by simp)
      · rw [List.filter_cons_of_neg (by simpa using hq)]
        exact ih

/-- A filter dropping a present element is strictly shorter than the
original list. -/
lemma filter_length_lt {β : Type} (p : β → Bool) (l : List β) (b : β)
    (hb : b ∈ l) (hpb : p b = false) : (l.filter p).length < l.length := by
  induction l with
  | nil => simp at hb
  | cons x xs ih =>
    rcases List.mem_cons.mp hb with rfl | hmem
    · rw [List.filter_cons_of_neg (by simp [hpb])]
      exact Nat.lt_succ_of_le (List.length_filter_le _ _)
    · by_cases hp : p x = true
      · rw [List.filter_cons_of_pos hp]
        simpa using ih hmem
      · rw [List.filter_cons_of_neg (by simpa using hp)]
        exact Nat.lt_succ_of_lt (ih hmem)

/-- Index of the first occurrence of a string in a list (0 when absent,
only used together with membership). -/
def idxOf : List String → String → ℕ
  | [], _ => 0
  | x :: xs, y => if x = y then 0 else idxOf xs y + 1

lemma idxOf_lt_length {l : List String} {y : String} (h : y ∈ l) :
    idxOf l y < l.length := by
  induction l with
  | nil => simp at h
  | cons x xs ih =>
    by_cases hx : x = y
    · simp [idxOf, hx]
    · have : y ∈ xs := by
        rcases List.mem_cons.mp h with h' | h'
        · exact absurd h'.symm hx
        · exact h'
      simpa [idxOf, hx] using Nat.succ_lt_succ (ih this)

lemma idxOf_append_left {l₁ : List String} (l₂ : List String) {y : String}
    (h : y ∈ l₁) : idxOf (l₁ ++ l₂) y = idxOf l₁ y := by
  induction l₁ with
  | nil => simp at h
  | cons x xs ih =>
    by_cases hx : x = y
    · simp [idxOf, hx]
    · have : y ∈ xs := by
        rcases List.mem_cons.mp h with h' | h'
        · exact absurd h'.symm hx
        · exact h'
      simp [idxOf, hx, ih this]

lemma idxOf_append_right {l₁ : List String} (l₂ : List String) {y : String}
    (h : y ∉ l₁) : idxOf (l₁ ++ l₂) y = l₁.length + idxOf l₂ y := by
  induction l₁ with
  | nil => simp [idxOf]
  | cons x xs ih =>
    have hx : x ≠ y := fun e => h (by simp [e])
    have : y ∉ xs := fun m => h (List.mem_cons_of_mem _ m)
    simp [idxOf, hx, ih this]
    omega

/-- Every nonempty list has an element minimising a natural measure. -/
lemma exists_min_measure {β : Type} (f : β → ℕ) :
    ∀ (l : List β), l ≠ [] → ∃ x ∈ l, ∀ y ∈ l, f x ≤ f y := by
  intro l
  induction l with
  | nil => intro h; exact absurd rfl h
  | cons a as ih =>
    intro _
    rcases as.eq_nil_or_concat.symm.imp_left id with h | h
    case inr h =>
      subst h
      exact ⟨a, by simp, by simp⟩
    case inl h =>
      have hne : as ≠ [] := by
        rcases h with ⟨l', b, rfl⟩
        simp
      obtain ⟨x, hx, hmin⟩ := ih hne
      by_cases hle : f a ≤ f x
      · refine ⟨a, by simp, ?_⟩
        intro y hy
        rcases List.mem_cons.mp hy with rfl | hy'
        · exact le_rfl
        · exact le_trans hle (hmin y hy')
      · refine ⟨x, List.mem_cons_of_mem _ hx, ?_⟩
        intro y hy
        rcases List.mem_cons.mp hy with rfl | hy'
        · exact le_of_not_le hle
        · exact hmin y hy'

/-! ## Dependency edges, cycles, and topological orderings -/

/-- A dependency edge between two node ids that are both present in the
graph (`_validate_dag` skips dependencies that name no node). -/
def edgeP {α : Type} (g : ComputationGraph α) (a b : String) : Prop :=
  presentB g a = true ∧ presentB g b = true ∧ b ∈ depsOf g a

/-- The graph has a dependency cycle among its nodes. -/
def HasCycle {α : Type} (g : ComputationGraph α) : Prop :=
  ∃ a, Relation.TransGen (edgeP g) a a

/-- The graph is acyclic (no dependency cycle among present nodes). -/
def AcyclicP {α : Type} (g : ComputationGraph α) : Prop :=
  ∀ a, ¬ Relation.TransGen (edgeP g) a a

/-- All dependencies of all nodes name present nodes. -/
def DepsPresent {α : Type} (g : ComputationGraph α) : Prop :=
  ∀ n ∈ g.nodes, ∀ d ∈ n.dependencies, presentB g d = true

/-- A list of ids is topologically ordered: the target of every edge
from a member occurs in the list, strictly earlier. -/
def TopoOrdered {α : Type} (g : ComputationGraph α) (o : List String) : Prop :=
  ∀ a b, a ∈ o → edgeP g a b → b ∈ o ∧ idxOf o b < idxOf o a

/-- Appending an id whose edges all land in the list preserves
topological ordering. -/
lemma topoOrdered_append {α : Type} {g : ComputationGraph α} {o : List String}
    {x : String} (ho : TopoOrdered g o) (hx : x ∉ o)
    (hdeps : ∀ b, edgeP g x b → b ∈ o) : TopoOrdered g (o ++ [x]) := by
  intro a b ha hab
  rcases List.mem_append.mp ha with ha' | ha'
  · obtain ⟨hb, hlt⟩ := ho a b ha' hab
    refine ⟨List.mem_append_left _ hb, ?_⟩
    rw [idxOf_append_left _ hb, idxOf_append_left _ ha']
    exact hlt
  · have hax : a = x := by simpa using ha'
    subst hax
    have hb := hdeps b hab
    refine ⟨List.mem_append_left _ hb, ?_⟩
    rw [idxOf_append_left _ hb, idxOf_append_right _ hx]
    have := idxOf_lt_length hb
    simp [idxOf]
    omega

/-- Along a transitive dependency path the index in a topological order
strictly decreases; hence a covering topological order forces
acyclicity. -/
lemma acyclic_of_topoOrdered {α : Type} {g : ComputationGraph α}
    {o : List String} (ho : TopoOrdered g o)
    (hcov : ∀ a, presentB g a = true → a ∈ o) : AcyclicP g := by
  have key : ∀ x y, Relation.TransGen (edgeP g) x y →
      x ∈ o ∧ y ∈ o ∧ idxOf o y < idxOf o x := by
    intro x y h
    induction h with
    | single hxy =>
      have hx := hcov _ hxy.1
      obtain ⟨hy, hlt⟩ := ho _ _ hx hxy
      exact ⟨hx, hy, hlt⟩
    | tail _ hbc ih =>
      obtain ⟨hx, hb, hlt⟩ := ih
      obtain ⟨hc, hlt'⟩ := ho _ _ hb hbc
      exact ⟨hx, hc, lt_trans hlt' hlt⟩
  intro a hcyc
  exact absurd (key a a hcyc).2.2 (lt_irrefl _)

/-- Membership in the node-id list is the same as presence. -/
lemma presentB_iff_mem_nodeIds {α : Type} (g : ComputationGraph α)
    (nid : String) : presentB g nid = true ↔ nid ∈ nodeIds g := by
  constructor
  · intro h
    unfold presentB findNode at h
    rw [Option.isSome_iff_exists] at h
    obtain ⟨n, hn⟩ := h
    have hmem := List.mem_of_find?_eq_some hn
    have hp := List.find?_some hn
    have : n.id = nid := by simpa using hp
    exact this ▸ List.mem_map_of_mem _ hmem
  · intro h
    obtain ⟨n, hn, rfl⟩ := List.mem_map.mp h
    unfold presentB findNode
    rw [Option.isSome_iff_exists]
    have : (g.nodes.find? (fun m => m.id == n.id)).isSome = true := by
      rw [List.find?_isSome]
      exact ⟨n, hn, by simp⟩
    rw [Option.isSome_iff_exists] at this
    exact this

/-- Present ids are among all traversable identifiers. -/
lemma mem_allIds_of_present {α : Type} {g : ComputationGraph α} {nid : String}
    (h : presentB g nid = true) : nid ∈ allIds g :=
  List.mem_append_left _ ((presentB_iff_mem_nodeIds g nid).mp h)

/-- Dependencies of present nodes are among all traversable ids. -/
lemma mem_allIds_of_dep {α : Type} {g : ComputationGraph α} {a d : String}
    (ha : presentB g a = true) (hd : d ∈ depsOf g a) : d ∈ allIds g := by
  unfold presentB at ha
  rw [Option.isSome_iff_exists] at ha
  obtain ⟨n, hn⟩ := ha
  have hmem := List.mem_of_find?_eq_some hn
  refine List.mem_append_right _ ?_
  rw [List.mem_flatten]
  refine ⟨n.dependencies, List.mem_map_of_mem _ hmem, ?_⟩
  unfold depsOf at hd
  rw [hn] at hd
  simpa using hd

/-- The fresh-identifier count: identifiers not yet visited.  It bounds
the remaining recursion depth of the traversals. -/
def freshCount {α : Type} (g : ComputationGraph α) (v : List String) : ℕ :=
  ((allIds g).filter (fun i => i ∉ v)).length

lemma freshCount_le_of_subset {α : Type} (g : ComputationGraph α)
    {v v' : List String} (h : ∀ x ∈ v, x ∈ v') :
    freshCount g v' ≤ freshCount g v := by
  apply filter_length_mono
  intro a ha
  simp only [decide_eq_true_eq] at ha ⊢
  exact fun hm => ha (h a hm)

lemma filter_cons_notmem_lt (x : String) (v : List String) :
    ∀ ids : List String, x ∈ ids → x ∉ v →
    (ids.filter (fun i => i ∉ (x :: v))).length <
      (ids.filter (fun i => i ∉ v)).length := by
  intro ids
  induction ids with
  | nil => intro h; simp at h
  | cons a as ih =>
    intro hx hnv
    by_cases hax : a = x
    · subst hax
      rw [List.filter_cons_of_neg (by simp),
        List.filter_cons_of_pos (by simpa using hnv)]
      have hle := filter_length_mono (fun i => decide (i ∉ (a :: v)))
        (fun i => decide (i ∉ v))
        (fun b hb => by
          simp only [decide_eq_true_eq, List.mem_cons, not_or] at hb ⊢
          exact hb.2) as
      simpa using Nat.lt_succ_of_le hle
    · have hx' : x ∈ as := by
        rcases List.mem_cons.mp hx with h' | h'
        · exact absurd h'.symm hax
        · exact h'
      by_cases hav : a ∈ v
      · have hxv : a ∈ x :: v := List.mem_cons_of_mem _ hav
        rw [List.filter_cons_of_neg (by simp [hxv]),
          List.filter_cons_of_neg (by simp [hav])]
        exact ih hx' hnv
      · have hxv : a ∉ x :: v := by
          simp only [List.mem_cons, not_or]
          exact ⟨hax, hav⟩
        rw [List.filter_cons_of_pos (by simpa using hxv),
          List.filter_cons_of_pos (by simpa using hav)]
        simpa using ih hx' hnv

lemma freshCount_lt_cons {α : Type} (g : ComputationGraph α)
    {v : List String} {x : String} (hx : x ∈ allIds g) (hnv : x ∉ v) :
    freshCount g (x :: v) < freshCount g v :=
  filter_cons_notmem_lt x v (allIds g) hx hnv

lemma freshCount_le_allIds {α : Type} (g : ComputationGraph α)
    (v : List String) : freshCount g v ≤ (allIds g).length :=
  List.length_filter_le _ _

/-! ## Soundness of the cycle detector: a `False` verdict of
`_validate_dag` comes from an actual dependency cycle -/

/-- The visited set only grows through the dependency loop (given that
the recursion callback only grows it). -/
lemma hasCycleDeps_mono {α : Type} (g : ComputationGraph α)
    (rec : String → List String → Bool × List String) (stack : List String)
    (hrec : ∀ d v, ∀ x ∈ v, x ∈ (rec d v).2) :
    ∀ ds v, ∀ x ∈ v, x ∈ (hasCycleDeps g rec stack ds v).2 := by
  intro ds
  induction ds with
  | nil => intro v x hx; simpa [hasCycleDeps] using hx
  | cons d ds ih =>
    intro v x hx
    simp only [hasCycleDeps]
    by_cases hp : presentB g d = true
    · rw [if_pos hp]
      by_cases hv : d ∈ v
      · rw [if_pos hv]
        by_cases hs : d ∈ stack
        · rw [if_pos hs]; exact hx
        · rw [if_neg hs]; exact ih v x hx
      · rw [if_neg hv]
        by_cases hb : (rec d v).1 = true
        · simp only [hb, if_true]
          exact hrec d v x hx
        · simp only [hb, if_false, Bool.false_eq_true]
          exact ih _ x (hrec d v x hx)
    · rw [if_neg hp]
      exact ih v x hx

/-- The visited set only grows through `has_cycle`. -/
lemma hasCycleFrom_mono {α : Type} (g : ComputationGraph α) :
    ∀ fuel stack nid v, ∀ x ∈ v, x ∈ (hasCycleFrom g fuel stack nid v).2 := by
  intro fuel
  induction fuel with
  | zero => intro stack nid v x hx; simpa [hasCycleFrom] using hx
  | succ fuel ih =>
    intro stack nid v x hx
    simp only [hasCycleFrom]
    exact hasCycleDeps_mono g _ _ (fun d v' => ih (nid :: stack) d v')
      _ _ x (List.mem_cons_of_mem _ hx)

/-- Soundness of the dependency loop: a `True` verdict yields a cycle,
given that the callback only grows the visited set and is sound on calls
whose visited set extends the loop's initial one. -/
lemma hasCycleDeps_sound {α : Type} (g : ComputationGraph α)
    (rec : String → List String → Bool × List String) (stack : List String)
    (cur : String) (v₀ : List String) (hcur : presentB g cur = true)
    (hstack : ∀ x ∈ stack, Relation.ReflTransGen (edgeP g) x cur)
    (hrecmono : ∀ d v, ∀ x ∈ v, x ∈ (rec d v).2)
    (hrec : ∀ d v', d ∈ depsOf g cur → presentB g d = true → d ∉ v' →
      (∀ x ∈ v₀, x ∈ v') → (rec d v').1 = true → HasCycle g) :
    ∀ ds v, (∀ d ∈ ds, d ∈ depsOf g cur) → (∀ x ∈ v₀, x ∈ v) →
    (hasCycleDeps g rec stack ds v).1 = true → HasCycle g := by
  intro ds
  induction ds with
  | nil => intro v _ _ h; simp [hasCycleDeps] at h
  | cons d ds ih =>
    intro v hds hsub h
    have hd : d ∈ depsOf g cur := hds d (List.mem_cons_self d ds)
    simp only [hasCycleDeps] at h
    by_cases hp : presentB g d = true
    · rw [if_pos hp] at h
      by_cases hv : d ∈ v
      · rw [if_pos hv] at h
        by_cases hs : d ∈ stack
        · -- back edge: the stack path d →* cur plus the edge cur → d
          exact ⟨d, Relation.TransGen.tail' (hstack d hs) ⟨hcur, hp, hd⟩⟩
        · rw [if_neg hs] at h
          exact ih v (fun x hx => hds x (List.mem_cons_of_mem _ hx)) hsub h
      · rw [if_neg hv] at h
        by_cases hb : (rec d v).1 = true
        · exact hrec d v hd hp hv hsub hb
        · simp only [hb, if_false, Bool.false_eq_true] at h
          exact ih _ (fun x hx => hds x (List.mem_cons_of_mem _ hx))
            (fun x hx => hrecmono d v x (hsub x hx)) h
    · rw [if_neg hp] at h
      exact ih v (fun x hx => hds x (List.mem_cons_of_mem _ hx)) hsub h

/-- Soundness of `has_cycle`: with sufficient fuel, a `True` verdict
yields a dependency cycle. -/
lemma hasCycleFrom_sound {α : Type} (g : ComputationGraph α) :
    ∀ fuel stack nid v, presentB g nid = true → nid ∉ v →
    (∀ x ∈ stack, Relation.ReflTransGen (edgeP g) x nid) →
    freshCount g v < fuel →
    (hasCycleFrom g fuel stack nid v).1 = true → HasCycle g := by
  intro fuel
  induction fuel with
  | zero =>
    intro stack nid v _ _ _ hfuel h
    exact absurd hfuel (Nat.not_lt_zero _)
  | succ fuel ih =>
    intro stack nid v hpres hnv hstack hfuel h
    simp only [hasCycleFrom] at h
    refine hasCycleDeps_sound g _ (nid :: stack) nid (nid :: v) hpres ?_ ?_ ?_
      _ _ (fun d hd => hd) (fun x hx => hx) h
    · intro x hx
      rcases List.mem_cons.mp hx with rfl | hx'
      · exact Relation.ReflTransGen.refl
      · exact hstack x hx'
    · intro d v' x hx
      exact hasCycleFrom_mono g fuel (nid :: stack) d v' x hx
    · intro d v' hd hp hdv hsub hrec
      refine ih (nid :: stack) d v' hp hdv ?_ ?_ hrec
      · intro x hx
        have hedge : edgeP g nid d := ⟨hpres, hp, hd⟩
        rcases List.mem_cons.mp hx with rfl | hx'
        · exact Relation.ReflTransGen.single hedge
        · exact (hstack x hx').trans (Relation.ReflTransGen.single hedge)
      · have h1 : freshCount g v' ≤ freshCount g (nid :: v) :=
          freshCount_le_of_subset g hsub
        have h2 : freshCount g (nid :: v) < freshCount g v :=
          freshCount_lt_cons g (mem_allIds_of_present hpres) hnv
        omega

/-- Soundness of the root loop of `_validate_dag`. -/
lemma validateAux_sound {α : Type} (g : ComputationGraph α) :
    ∀ roots v, (∀ r ∈ roots, presentB g r = true) →
    validateAux g roots v = false → HasCycle g := by
  intro roots
  induction roots with
  | nil => intro v _ h; simp [validateAux] at h
  | cons nid rest ih =>
    intro v hroots h
    simp only [validateAux] at h
    by_cases hv : nid ∈ v
    · rw [if_pos hv] at h
      exact ih v (fun r hr => hroots r (List.mem_cons_of_mem _ hr)) h
    · rw [if_neg hv] at h
      by_cases hb : (hasCycleFrom g (topoFuel g) [] nid v).1 = true
      · refine hasCycleFrom_sound g (topoFuel g) [] nid v
          (hroots nid (List.mem_cons_self nid rest)) hv (by simp) ?_ hb
        exact Nat.lt_succ_of_le (freshCount_le_allIds g v)
      · simp only [hb, if_false, Bool.false_eq_true] at h
        exact ih _ (fun r hr => hroots r (List.mem_cons_of_mem _ hr)) h

/-- `_validate_dag` returning `False` demonstrates a dependency cycle;
contrapositive: acyclic graphs validate. -/
lemma validate_dag_sound {α : Type} (g : ComputationGraph α)
    (h : validate_dag g = false) : HasCycle g := by
  refine validateAux_sound g (nodeIds g) [] ?_ h
  intro r hr
  exact (presentB_iff_mem_nodeIds g r).mpr hr

/-! ## Completeness of the cycle detector: a `True` verdict of
`_validate_dag` forces acyclicity

The proof instruments the detector with a ghost list of finished nodes
(the ones removed from the recursion stack): on a cycle-free run the
finished list is a topological order covering every node, which forces
acyclicity.  The instrumented functions project onto the real ones. -/

/-- `hasCycleDeps` instrumented with the ghost finished list. -/
def hasCycleDepsF {α : Type} (g : ComputationGraph α)
    (rec : String → List String → List String → Bool × List String × List String)
    (stack : List String) :
    List String → List String → List String → Bool × List String × List String
  | [], v, f => (false, v, f)
  | d :: ds, v, f =>
      if presentB g d then
        if d ∈ v then
          if d ∈ stack then (true, v, f)
          else hasCycleDepsF g rec stack ds v f
        else
          let r := rec d v f
          if r.1 then (true, r.2.1, r.2.2)
          else hasCycleDepsF g rec stack ds r.2.1 r.2.2
      else hasCycleDepsF g rec stack ds v f

/-- `hasCycleFrom` instrumented with the ghost finished list: a node is
appended to the finished list exactly when its call returns without
having found a cycle (the moment it leaves the recursion stack). -/
def hasCycleFromF {α : Type} (g : ComputationGraph α) :
    ℕ → List String → String → List String → List String →
    Bool × List String × List String
  | 0, _, _, v, f => (true, v, f)
  | fuel + 1, stack, nid, v, f =>
      let r := hasCycleDepsF g
        (fun d v' f' => hasCycleFromF g fuel (nid :: stack) d v' f')
        (nid :: stack) (depsOf g nid) (nid :: v) f
      if r.1 then (true, r.2.1, r.2.2)
      else (false, r.2.1, r.2.2 ++ [nid])

/-- The instrumented dependency loop projects onto the real one. -/
lemma hasCycleDepsF_proj {α : Type} (g : ComputationGraph α)
    (rec : String → List String → Bool × List String)
    (recF : String → List String → List String → Bool × List String × List String)
    (stack : List String)
    (hproj : ∀ d v f, ((recF d v f).1, (recF d v f).2.1) = rec d v) :
    ∀ ds v f, ((hasCycleDepsF g recF stack ds v f).1,
      (hasCycleDepsF g recF stack ds v f).2.1) = hasCycleDeps g rec stack ds v := by
  intro ds
  induction ds with
  | nil => intro v f; rfl
  | cons d ds ih =>
    intro v f
    simp only [hasCycleDepsF, hasCycleDeps]
    by_cases hp : presentB g d = true
    · rw [if_pos hp, if_pos hp]
      by_cases hv : d ∈ v
      · rw [if_pos hv, if_pos hv]
        by_cases hs : d ∈ stack
        · rw [if_pos hs, if_pos hs]
        · rw [if_neg hs, if_neg hs]; exact ih v f
      · rw [if_neg hv, if_neg hv]
        have hpr := hproj d v f
        have h1 : (recF d v f).1 = (rec d v).1 := by
          rw [← hpr]
        have h2 : (recF d v f).2.1 = (rec d v).2 := by
          rw [← hpr]
        by_cases hb : (recF d v f).1 = true
        · rw [if_pos hb, if_pos (h1 ▸ hb)]
          simp [h2]
        · rw [if_neg hb, if_neg (h1 ▸ hb), h2]
          exact ih _ _
    · rw [if_neg hp, if_neg hp]; exact ih v f

/-- The instrumented `has_cycle` projects onto the real one. -/
lemma hasCycleFromF_proj {α : Type} (g : ComputationGraph α) :
    ∀ fuel stack nid v f, ((hasCycleFromF g fuel stack nid v f).1,
      (hasCycleFromF g fuel stack nid v f).2.1) = hasCycleFrom g fuel stack nid v := by
  intro fuel
  induction fuel with
  | zero => intro stack nid v f; rfl
  | succ fuel ih =>
    intro stack nid v f
    simp only [hasCycleFromF, hasCycleFrom]
    have hd := hasCycleDepsF_proj g
      (fun d v' => hasCycleFrom g fuel (nid :: stack) d v')
      (fun d v' f' => hasCycleFromF g fuel (nid :: stack) d v' f')
      (nid :: stack) (fun d v' f' => ih (nid :: stack) d v' f')
      (depsOf g nid) (nid :: v) f
    by_cases hb : (hasCycleDepsF g
        (fun d v' f' => hasCycleFromF g fuel (nid :: stack) d v' f')
        (nid :: stack) (depsOf g nid) (nid :: v) f).1 = true
    · rw [if_pos hb]
      rw [← hd]
      simp [hb]
    · rw [if_neg hb]
      rw [← hd]
      simp [Bool.eq_false_iff.mpr hb]

/-- The detector state invariant for completeness: the visited set is
the disjoint union of the finished list and the recursion stack, and the
finished list is a duplicate-free topological order. -/
structure DetInv {α : Type} (g : ComputationGraph α)
    (stack v f : List String) : Prop where
  eqv : ∀ x, x ∈ v ↔ (x ∈ f ∨ x ∈ stack)
  disj : ∀ x ∈ stack, x ∉ f
  nodupf : f.Nodup
  topo : TopoOrdered g f

/-- Completeness of the instrumented dependency loop: on a cycle-free
run the invariant is preserved, the finished list only grows at the end,
and every present scanned dependency ends up finished. -/
lemma hasCycleDepsF_complete {α : Type} (g : ComputationGraph α)
    (recF : String → List String → List String → Bool × List String × List String)
    (stack : List String) (cur : String) (v₀ : List String)
    (hrecC : ∀ d v f, d ∈ depsOf g cur → presentB g d = true → d ∉ v →
      (∀ x ∈ v₀, x ∈ v) → DetInv g stack v f → (recF d v f).1 = false →
      (∀ x ∈ v, x ∈ (recF d v f).2.1) ∧
      (∃ Δ, (recF d v f).2.2 = f ++ Δ) ∧
      DetInv g stack (recF d v f).2.1 (recF d v f).2.2 ∧
      d ∈ (recF d v f).2.2) :
    ∀ ds v f, (∀ d ∈ ds, d ∈ depsOf g cur) → (∀ x ∈ v₀, x ∈ v) →
    DetInv g stack v f →
    (hasCycleDepsF g recF stack ds v f).1 = false →
    (∀ x ∈ v, x ∈ (hasCycleDepsF g recF stack ds v f).2.1) ∧
    (∃ Δ, (hasCycleDepsF g recF stack ds v f).2.2 = f ++ Δ) ∧
    DetInv g stack (hasCycleDepsF g recF stack ds v f).2.1
      (hasCycleDepsF g recF stack ds v f).2.2 ∧
    (∀ d ∈ ds, presentB g d = true →
      d ∈ (hasCycleDepsF g recF stack ds v f).2.2) := by
  intro ds
  induction ds with
  | nil =>
    intro v f _ _ hinv _
    exact ⟨fun x hx => hx, ⟨[], by simp [hasCycleDepsF]⟩, hinv, by simp⟩
  | cons d ds ih =>
    intro v f hds hsub hinv hfalse
    have hd : d ∈ depsOf g cur := hds d (List.mem_cons_self d ds)
    simp only [hasCycleDepsF] at hfalse ⊢
    by_cases hp : presentB g d = true
    · rw [if_pos hp] at hfalse ⊢
      by_cases hv : d ∈ v
      · rw [if_pos hv] at hfalse ⊢
        by_cases hs : d ∈ stack
        · rw [if_pos hs] at hfalse; simp at hfalse
        · rw [if_neg hs] at hfalse ⊢
          obtain ⟨m, e, i, all⟩ :=
            ih v f (fun x hx => hds x (List.mem_cons_of_mem _ hx)) hsub hinv hfalse
          refine ⟨m, e, i, ?_⟩
          intro x hx hxp
          rcases List.mem_cons.mp hx with rfl | hx'
          · -- d is already finished: it is visited but not on the stack
            have hdf : x ∈ f := ((hinv.eqv x).mp hv).resolve_right hs
            obtain ⟨Δ, hΔ⟩ := e
            rw [hΔ]
            exact List.mem_append_left _ hdf
          · exact all x hx' hxp
      · rw [if_neg hv] at hfalse ⊢
        by_cases hb : (recF d v f).1 = true
        · rw [if_pos hb] at hfalse; simp at hfalse
        · rw [if_neg hb] at hfalse ⊢
          obtain ⟨rm, ⟨Δ₁, hΔ₁⟩, ri, rd⟩ := hrecC d v f hd hp hv hsub hinv
            (Bool.eq_false_iff.mpr hb)
          obtain ⟨m, e, i, all⟩ := ih (recF d v f).2.1 (recF d v f).2.2
            (fun x hx => hds x (List.mem_cons_of_mem _ hx))
            (fun x hx => rm x (hsub x hx)) ri hfalse
          refine ⟨fun x hx => m x (rm x hx), ?_, i, ?_⟩
          · obtain ⟨Δ₂, hΔ₂⟩ := e
            exact ⟨Δ₁ ++ Δ₂, by rw [hΔ₂, hΔ₁, List.append_assoc]⟩
          · intro x hx hxp
            rcases List.mem_cons.mp hx with rfl | hx'
            · obtain ⟨Δ₂, hΔ₂⟩ := e
              rw [hΔ₂]
              exact List.mem_append_left _ rd
            · exact all x hx' hxp
    · rw [if_neg hp] at hfalse ⊢
      obtain ⟨m, e, i, all⟩ :=
        ih v f (fun x hx => hds x (List.mem_cons_of_mem _ hx)) hsub hinv hfalse
      refine ⟨m, e, i, ?_⟩
      intro x hx hxp
      rcases List.mem_cons.mp hx with rfl | hx'
      · exact absurd hxp (by simp [hp])
      · exact all x hx' hxp

/-- Completeness of the instrumented `has_cycle`: a cycle-free run
finishes the node, preserving the invariant. -/
lemma hasCycleFromF_complete {α : Type} (g : ComputationGraph α) :
    ∀ fuel stack nid v f, presentB g nid = true → nid ∉ v →
    DetInv g stack v f → freshCount g v < fuel →
    (hasCycleFromF g fuel stack nid v f).1 = false →
    (∀ x ∈ v, x ∈ (hasCycleFromF g fuel stack nid v f).2.1) ∧
    (∃ Δ, (hasCycleFromF g fuel stack nid v f).2.2 = f ++ Δ) ∧
    DetInv g stack (hasCycleFromF g fuel stack nid v f).2.1
      (hasCycleFromF g fuel stack nid v f).2.2 ∧
    nid ∈ (hasCycleFromF g fuel stack nid v f).2.2 := by
  intro fuel
  induction fuel with
  | zero =>
    intro stack nid v f _ _ _ hfuel _
    exact absurd hfuel (Nat.not_lt_zero _)
  | succ fuel ih =>
    intro stack nid v f hpres hnv hinv hfuel hfalse
    have hnf : nid ∉ f := fun hm => hnv ((hinv.eqv nid).mpr (Or.inl hm))
    have hns : nid ∉ stack := fun hm => hnv ((hinv.eqv nid).mpr (Or.inr hm))
    have hinv' : DetInv g (nid :: stack) (nid :: v) f := by
      refine ⟨?_, ?_, hinv.nodupf, hinv.topo⟩
      · intro x
        constructor
        · intro hx
          rcases List.mem_cons.mp hx with rfl | hx'
          · exact Or.inr (List.mem_cons_self _ _)
          · rcases (hinv.eqv x).mp hx' with hf | hs
            · exact Or.inl hf
            · exact Or.inr (List.mem_cons_of_mem _ hs)
        · intro hx
          rcases hx with hf | hs
          · exact List.mem_cons_of_mem _ ((hinv.eqv x).mpr (Or.inl hf))
          · rcases List.mem_cons.mp hs with rfl | hs'
            · exact List.mem_cons_self _ _
            · exact List.mem_cons_of_mem _ ((hinv.eqv x).mpr (Or.inr hs'))
      · intro x hx
        rcases List.mem_cons.mp hx with rfl | hx'
        · exact hnf
        · exact hinv.disj x hx'
    simp only [hasCycleFromF] at hfalse ⊢
    by_cases hb : (hasCycleDepsF g
        (fun d v' f' => hasCycleFromF g fuel (nid :: stack) d v' f')
        (nid :: stack) (depsOf g nid) (nid :: v) f).1 = true
    · rw [if_pos hb] at hfalse; simp at hfalse
    · rw [if_neg hb] at hfalse ⊢
      have hcb : ∀ d v' f', d ∈ depsOf g nid → presentB g d = true → d ∉ v' →
          (∀ x ∈ nid :: v, x ∈ v') → DetInv g (nid :: stack) v' f' →
          (hasCycleFromF g fuel (nid :: stack) d v' f').1 = false →
          (∀ x ∈ v', x ∈ (hasCycleFromF g fuel (nid :: stack) d v' f').2.1) ∧
          (∃ Δ, (hasCycleFromF g fuel (nid :: stack) d v' f').2.2 = f' ++ Δ) ∧
          DetInv g (nid :: stack) (hasCycleFromF g fuel (nid :: stack) d v' f').2.1
            (hasCycleFromF g fuel (nid :: stack) d v' f').2.2 ∧
          d ∈ (hasCycleFromF g fuel (nid :: stack) d v' f').2.2 := by
        intro d v' f' hd hp hdv hsub hinvD hbF
        refine ih (nid :: stack) d v' f' hp hdv hinvD ?_ hbF
        have h1 : freshCount g v' ≤ freshCount g (nid :: v) :=
          freshCount_le_of_subset g hsub
        have h2 : freshCount g (nid :: v) < freshCount g v :=
          freshCount_lt_cons g (mem_allIds_of_present hpres) hnv
        omega
      obtain ⟨rm, ⟨Δ, hΔ⟩, ri, rall⟩ := hasCycleDepsF_complete g
        (fun d v' f' => hasCycleFromF g fuel (nid :: stack) d v' f')
        (nid :: stack) nid (nid :: v) hcb (depsOf g nid) (nid :: v) f
        (fun d hd => hd) (fun x hx => hx) hinv' (Bool.eq_false_iff.mpr hb)
      set r := hasCycleDepsF g
        (fun d v' f' => hasCycleFromF g fuel (nid :: stack) d v' f')
        (nid :: stack) (depsOf g nid) (nid :: v) f with hr
      have hnfr : nid ∉ r.2.2 := ri.disj nid (List.mem_cons_self _ _)
      refine ⟨?_, ⟨Δ ++ [nid], by rw [hΔ, List.append_assoc]⟩, ?_, ?_⟩
      · intro x hx
        exact rm x (List.mem_cons_of_mem _ hx)
      · refine ⟨?_, ?_, ?_, ?_⟩
        · intro x
          constructor
          · intro hx
            rcases (ri.eqv x).mp hx with hf | hs
            · exact Or.inl (List.mem_append_left _ hf)
            · rcases List.mem_cons.mp hs with rfl | hs'
              · exact Or.inl (List.mem_append_right _ (by simp))
              · exact Or.inr hs'
          · intro hx
            rcases hx with hf | hs
            · rcases List.mem_append.mp hf with hf' | hf'
              · exact (ri.eqv x).mpr (Or.inl hf')
              · have : x = nid := by simpa using hf'
                subst this
                exact (ri.eqv x).mpr (Or.inr (List.mem_cons_self _ _))
            · exact (ri.eqv x).mpr (Or.inr (List.mem_cons_of_mem _ hs))
        · intro x hx
          have h1 : x ∉ r.2.2 := ri.disj x (List.mem_cons_of_mem _ hx)
          have h2 : x ≠ nid := fun e => hns (e ▸ hx)
          simp only [List.mem_append, List.mem_singleton, not_or]
          exact ⟨h1, h2⟩
        · rw [← List.concat_eq_append]
          exact List.Nodup.concat hnfr ri.nodupf
        · refine topoOrdered_append ri.topo hnfr ?_
          intro b hb'
          exact rall b hb'.2.2 hb'.2.1
      · exact List.mem_append_right _ (by simp)

/-- The instrumented root loop of `_validate_dag`. -/
def validateAuxF {α : Type} (g : ComputationGraph α) :
    List String → List String → List String → Bool × List String × List String
  | [], v, f => (true, v, f)
  | nid :: rest, v, f =>
      if nid ∈ v then validateAuxF g rest v f
      else
        let r := hasCycleFromF g (topoFuel g) [] nid v f
        if r.1 then (false, r.2.1, r.2.2) else validateAuxF g rest r.2.1 r.2.2

/-- The instrumented root loop projects onto `validateAux`. -/
lemma validateAuxF_proj {α : Type} (g : ComputationGraph α) :
    ∀ roots v f, (validateAuxF g roots v f).1 = validateAux g roots v := by
  intro roots
  induction roots with
  | nil => intro v f; rfl
  | cons nid rest ih =>
    intro v f
    simp only [validateAuxF, validateAux]
    by_cases hv : nid ∈ v
    · rw [if_pos hv, if_pos hv]; exact ih v f
    · rw [if_neg hv, if_neg hv]
      have hp := hasCycleFromF_proj g (topoFuel g) [] nid v f
      have h1 : (hasCycleFromF g (topoFuel g) [] nid v f).1 =
          (hasCycleFrom g (topoFuel g) [] nid v).1 := by rw [← hp]
      have h2 : (hasCycleFromF g (topoFuel g) [] nid v f).2.1 =
          (hasCycleFrom g (topoFuel g) [] nid v).2 := by rw [← hp]
      by_cases hb : (hasCycleFromF g (topoFuel g) [] nid v f).1 = true
      · rw [if_pos hb, if_pos (h1 ▸ hb)]
      · rw [if_neg hb, if_neg (h1 ▸ hb), h2]
        exact ih _ _

/-- Completeness of the root loop: a `True` run yields a finished list
that is a topological order containing every root. -/
lemma validateAuxF_complete {α : Type} (g : ComputationGraph α) :
    ∀ roots v f, (∀ r ∈ roots, presentB g r = true) → DetInv g [] v f →
    (validateAuxF g roots v f).1 = true →
    DetInv g [] (validateAuxF g roots v f).2.1 (validateAuxF g roots v f).2.2 ∧
    (∀ r ∈ roots, r ∈ (validateAuxF g roots v f).2.1) ∧
    (∀ x ∈ v, x ∈ (validateAuxF g roots v f).2.1) := by
  intro roots
  induction roots with
  | nil =>
    intro v f _ hinv _
    exact ⟨hinv, by simp, fun x hx => hx⟩
  | cons nid rest ih =>
    intro v f hroots hinv htrue
    simp only [validateAuxF] at htrue ⊢
    by_cases hv : nid ∈ v
    · rw [if_pos hv] at htrue ⊢
      obtain ⟨i, rmem, m⟩ := ih v f
        (fun r hr => hroots r (List.mem_cons_of_mem _ hr)) hinv htrue
      refine ⟨i, ?_, m⟩
      intro r hr
      rcases List.mem_cons.mp hr with rfl | hr'
      · exact m r hv
      · exact rmem r hr'
    · rw [if_neg hv] at htrue ⊢
      by_cases hb : (hasCycleFromF g (topoFuel g) [] nid v f).1 = true
      · rw [if_pos hb] at htrue; simp at htrue
      · rw [if_neg hb] at htrue ⊢
        obtain ⟨rm, _, ri, rfin⟩ := hasCycleFromF_complete g (topoFuel g) [] nid v f
          (hroots nid (List.mem_cons_self nid rest)) hv hinv
          (Nat.lt_succ_of_le (freshCount_le_allIds g v))
          (Bool.eq_false_iff.mpr hb)
        obtain ⟨i, rmem, m⟩ := ih _ _
          (fun r hr => hroots r (List.mem_cons_of_mem _ hr)) ri htrue
        refine ⟨i, ?_, fun x hx => m x (rm x hx)⟩
        intro r hr
        rcases List.mem_cons.mp hr with rfl | hr'
        · exact m r ((ri.eqv r).mpr (Or.inl rfin))
        · exact rmem r hr'

/-- Completeness of `_validate_dag`: a `True` verdict forces
acyclicity (no dependency cycle among present nodes exists). -/
lemma validate_dag_complete {α : Type} (g : ComputationGraph α)
    (h : validate_dag g = true) : AcyclicP g := by
  have hproj := validateAuxF_proj g (nodeIds g) [] []
  have htrue : (validateAuxF g (nodeIds g) [] []).1 = true := by
    rw [hproj]; exact h
  have hinv0 : DetInv g ([] : List String) [] [] :=
    ⟨fun x => by simp, by simp, List.nodup_nil, fun a b ha => by simp at ha⟩
  obtain ⟨i, rmem, _⟩ := validateAuxF_complete g (nodeIds g) [] []
    (fun r hr => (presentB_iff_mem_nodeIds g r).mpr hr) hinv0 htrue
  refine acyclic_of_topoOrdered i.topo ?_
  intro a ha
  have hmem := rmem a ((presentB_iff_mem_nodeIds g a).mp ha)
  exact ((i.eqv a).mp hmem).elim id (fun hs => absurd hs (by simp))

/-! ## Claim C5: cycles abort execution before any node runs -/

/-- C5: a graph with a dependency cycle among its nodes fails
`_validate_dag`, so `_topological_sort` (and with it
`get_parallel_batches` and `execute`) raises `CycleError` before any
node's compute function is invoked; the error return carries no results,
matching the untouched empty results dict. -/
theorem c5_cycle_raises_before_execution {α : Type} (g : ComputationGraph α)
    (ctx : Ctx) (hcyc : HasCycle g) :
    validate_dag g = false ∧
    topological_sort g = .error .cycleError ∧
    get_parallel_batches g = .error .cycleError ∧
    g.execute ctx = .error .cycleError := by
  have hval : validate_dag g = false := by
    by_cases h : validate_dag g = true
    · obtain ⟨a, ha⟩ := hcyc
      exact absurd ha (validate_dag_complete g h a)
    · exact Bool.eq_false_iff.mpr h
  have htopo : topological_sort g = .error .cycleError := by
    simp [topological_sort, hval]
  have hbat : get_parallel_batches g = .error .cycleError := by
    unfold get_parallel_batches
    rw [htopo]
    rfl
  refine ⟨hval, htopo, hbat, ?_⟩
  unfold ComputationGraph.execute
  rw [hbat]
  rfl

/-- C5 witness: the concrete two-node cycle A ↔ B aborts with
`CycleError` and executes nothing. -/
theorem c5_cycle_raises_witness :
    validate_dag cycGraph = false ∧
    topological_sort cycGraph = .error .cycleError ∧
    get_parallel_batches cycGraph = .error .cycleError ∧
    cycGraph.execute exCtx = .error .cycleError :=
  have e1 : edgeP cycGraph "A" "B" := by
    refine ⟨?_, ?_, ?_⟩ <;> decide
  have e2 : edgeP cycGraph "B" "A" := by
    refine ⟨?_, ?_, ?_⟩ <;> decide
  c5_cycle_raises_before_execution cycGraph exCtx
    ⟨"A", Relation.TransGen.head e1 (Relation.TransGen.single e2)⟩

/-! ## Structure of the DFS post-order (`_topological_sort`)

`visitT` maintains: the visited set only grows, the order list only
grows by appending fresh (previously unvisited) ids, order entries are
visited, present and duplicate-free, and — relative to a ghost set `P`
of ids currently being expanded — every visited present id is either
pending or already ordered.  These hold unconditionally.  With
acyclicity and presence of all dependencies the order is moreover
topologically sorted and contains the visited node. -/

/-- Unconditional conclusions of one `visit` (or one dependency loop)
relative to the pending set `P`. -/
structure VStep {α : Type} (g : ComputationGraph α) (P : List String)
    (s s' : List String × List String) : Prop where
  vmono : ∀ x ∈ s.1, x ∈ s'.1
  onew : ∃ Δ, s'.2 = s.2 ++ Δ ∧ ∀ x ∈ Δ, x ∉ s.1
  osub : ∀ x ∈ s'.2, x ∈ s'.1
  opres : ∀ x ∈ s'.2, presentB g x = true
  onodup : s'.2.Nodup
  cover : ∀ x, presentB g x = true → x ∈ s'.1 → x ∈ P ∨ x ∈ s'.2

/-- `VStep` composes transitively. -/
lemma VStep.trans {α : Type} {g : ComputationGraph α} {P : List String}
    {s₁ s₂ s₃ : List String × List String}
    (h₁ : VStep g P s₁ s₂) (h₂ : VStep g P s₂ s₃) : VStep g P s₁ s₃ := by
  refine ⟨fun x hx => h₂.vmono x (h₁.vmono x hx), ?_, h₂.osub, h₂.opres,
    h₂.onodup, h₂.cover⟩
  obtain ⟨Δ₁, e₁, f₁⟩ := h₁.onew
  obtain ⟨Δ₂, e₂, f₂⟩ := h₂.onew
  refine ⟨Δ₁ ++ Δ₂, by rw [e₂, e₁, List.append_assoc], ?_⟩
  intro x hx
  rcases List.mem_append.mp hx with hx' | hx'
  · exact f₁ x hx'
  · intro hv
    exact f₂ x hx' (h₁.vmono x hv)

/-- The reflexive `VStep` holds when the current state is invariant. -/
lemma VStep.refl_of {α : Type} {g : ComputationGraph α} {P : List String}
    {s : List String × List String}
    (hosub : ∀ x ∈ s.2, x ∈ s.1) (hopres : ∀ x ∈ s.2, presentB g x = true)
    (hnodup : s.2.Nodup)
    (hcover : ∀ x, presentB g x = true → x ∈ s.1 → x ∈ P ∨ x ∈ s.2) :
    VStep g P s s :=
  ⟨fun x hx => hx, ⟨[], by simp, by simp⟩, hosub, hopres, hnodup, hcover⟩

/-- The dependency loop satisfies `VStep` given that the callback
does. -/
lemma visitList_basic {α : Type} (g : ComputationGraph α) (P : List String)
    (rec : String → List String × List String → List String × List String)
    (hrec : ∀ d s, (∀ x ∈ s.2, x ∈ s.1) → (∀ x ∈ s.2, presentB g x = true) →
      s.2.Nodup → (∀ x, presentB g x = true → x ∈ s.1 → x ∈ P ∨ x ∈ s.2) →
      VStep g P s (rec d s)) :
    ∀ ds s, (∀ x ∈ s.2, x ∈ s.1) → (∀ x ∈ s.2, presentB g x = true) →
    s.2.Nodup → (∀ x, presentB g x = true → x ∈ s.1 → x ∈ P ∨ x ∈ s.2) →
    VStep g P s (visitList rec ds s) := by
  intro ds
  induction ds with
  | nil =>
    intro s hosub hopres hnodup hcover
    exact VStep.refl_of hosub hopres hnodup hcover
  | cons d ds ih =>
    intro s hosub hopres hnodup hcover
    have h₁ := hrec d s hosub hopres hnodup hcover
    have h₂ := ih (rec d s) h₁.osub h₁.opres h₁.onodup h₁.cover
    exact h₁.trans h₂

/-- `visit` satisfies `VStep` unconditionally (relative to pending `P`),
and with positive fuel the visited node enters the visited set. -/
lemma visitT_basic {α : Type} (g : ComputationGraph α) :
    ∀ fuel (cur : String) s (P : List String),
    (∀ x ∈ s.2, x ∈ s.1) → (∀ x ∈ s.2, presentB g x = true) →
    s.2.Nodup → (∀ x, presentB g x = true → x ∈ s.1 → x ∈ P ∨ x ∈ s.2) →
    VStep g P s (visitT g fuel cur s) ∧
    (1 ≤ fuel → cur ∈ (visitT g fuel cur s).1) := by
  intro fuel
  induction fuel with
  | zero =>
    intro cur s P hosub hopres hnodup hcover
    exact ⟨VStep.refl_of hosub hopres hnodup hcover, by omega⟩
  | succ fuel ih =>
    intro cur s P hosub hopres hnodup hcover
    by_cases hv : cur ∈ s.1
    · have heq : visitT g (fuel + 1) cur s = s := by
        simp only [visitT]
        rw [if_pos hv]
      rw [heq]
      exact ⟨VStep.refl_of hosub hopres hnodup hcover, fun _ => hv⟩
    · cases hfind : findNode g cur with
      | none =>
        have heq : visitT g (fuel + 1) cur s = (cur :: s.1, s.2) := by
          simp only [visitT]
          rw [if_neg hv, hfind]
        have hnp : presentB g cur ≠ true := by
          simp [presentB, hfind]
        rw [heq]
        refine ⟨⟨?_, ⟨[], by simp, by simp⟩, ?_, hopres, hnodup, ?_⟩, ?_⟩
        · intro x hx
          exact List.mem_cons_of_mem _ hx
        · intro x hx
          exact List.mem_cons_of_mem _ (hosub x hx)
        · intro x hxp hxv
          rcases List.mem_cons.mp hxv with rfl | hxv'
          · exact absurd hxp hnp
          · exact hcover x hxp hxv'
        · intro _
          exact List.mem_cons_self _ _
      | some node =>
        have hpres : presentB g cur = true := by
          simp [presentB, hfind]
        set s1 := visitList (fun d t => visitT g fuel d t)
          node.dependencies (cur :: s.1, s.2) with hs1
        have heq : visitT g (fuel + 1) cur s = (s1.1, s1.2 ++ [cur]) := by
          simp only [visitT]
          rw [if_neg hv, hfind]
        -- entry invariants of the dependency fold at (cur :: v, o)
        have hosub0 : ∀ x ∈ (cur :: s.1, s.2).2, x ∈ (cur :: s.1, s.2).1 :=
          fun x hx => List.mem_cons_of_mem _ (hosub x hx)
        have hcover0 : ∀ x, presentB g x = true →
            x ∈ (cur :: s.1, s.2).1 → x ∈ cur :: P ∨ x ∈ (cur :: s.1, s.2).2 := by
          intro x hxp hxv
          rcases List.mem_cons.mp hxv with rfl | hxv'
          · exact Or.inl (List.mem_cons_self _ _)
          · rcases hcover x hxp hxv' with h | h
            · exact Or.inl (List.mem_cons_of_mem _ h)
            · exact Or.inr h
        have hfold : VStep g (cur :: P) (cur :: s.1, s.2) s1 :=
          visitList_basic g (cur :: P) (fun d t => visitT g fuel d t)
            (fun d t ho hp hn hc => (ih d t (cur :: P) ho hp hn hc).1)
            node.dependencies (cur :: s.1, s.2) hosub0 hopres hnodup hcover0
        have hcurv1 : cur ∈ s1.1 := hfold.vmono cur (List.mem_cons_self _ _)
        obtain ⟨Δ₁, he₁, hf₁⟩ := hfold.onew
        have hcurno1 : cur ∉ s1.2 := by
          rw [he₁]
          intro hmem
          rcases List.mem_append.mp hmem with h | h
          · exact hv (hosub cur h)
          · exact hf₁ cur h (List.mem_cons_self _ _)
        rw [heq]
        refine ⟨⟨?_, ?_, ?_, ?_, ?_, ?_⟩, fun _ => hcurv1⟩
        · intro x hx
          exact hfold.vmono x (List.mem_cons_of_mem _ hx)
        · refine ⟨Δ₁ ++ [cur], ?_, ?_⟩
          · show s1.2 ++ [cur] = s.2 ++ (Δ₁ ++ [cur])
            rw [he₁, List.append_assoc]
          · intro x hx
            rcases List.mem_append.mp hx with hx' | hx'
            · intro hxv
              exact hf₁ x hx' (List.mem_cons_of_mem _ hxv)
            · have : x = cur := by simpa using hx'
              subst this
              exact hv
        · intro x hx
          rcases List.mem_append.mp hx with hx' | hx'
          · exact hfold.osub x hx'
          · have : x = cur := by simpa using hx'
            subst this
            exact hcurv1
        · intro x hx
          rcases List.mem_append.mp hx with hx' | hx'
          · exact hfold.opres x hx'
          · have : x = cur := by simpa using hx'
            subst this
            exact hpres
        · rw [← List.concat_eq_append]
          exact List.Nodup.concat hcurno1 hfold.onodup
        · intro x hxp hxv
          rcases hfold.cover x hxp hxv with h | h
          · rcases List.mem_cons.mp h with rfl | h'
            · exact Or.inr (List.mem_append_right _ (by simp))
            · exact Or.inl h'
          · exact Or.inr (List.mem_append_left _ h)

/-- The dependency list of a present node is that node's field. -/
lemma depsOf_eq_of_find {α : Type} {g : ComputationGraph α} {cur : String}
    {node : ComputationNode α} (hfind : findNode g cur = some node) :
    depsOf g cur = node.dependencies := by
  unfold depsOf
  rw [hfind]
  rfl

/-- With `DepsPresent`, dependencies of present nodes are present. -/
lemma present_of_dep {α : Type} {g : ComputationGraph α}
    (hdp : DepsPresent g) {a d : String} (ha : presentB g a = true)
    (hd : d ∈ depsOf g a) : presentB g d = true := by
  have ha' := ha
  unfold presentB at ha'
  rw [Option.isSome_iff_exists] at ha'
  obtain ⟨n, hn⟩ := ha'
  rw [depsOf_eq_of_find hn] at hd
  exact hdp n (List.mem_of_find?_eq_some hn) d hd

/-- Conditional correctness of the dependency loop of `visit`: with an
acyclic graph whose dependencies are present, the dependency loop keeps
the order topologically sorted, puts every scanned dependency into the
order, and does not create new unordered visited ids. -/
lemma visitList_topo {α : Type} (g : ComputationGraph α)
    (_hac : AcyclicP g) (hdp : DepsPresent g) (fuel : ℕ) (cur : String)
    (hcur : presentB g cur = true)
    (hrec : ∀ d t, presentB g d = true →
      (∀ x ∈ t.2, x ∈ t.1) → (∀ x ∈ t.2, presentB g x = true) → t.2.Nodup →
      TopoOrdered g t.2 →
      (∀ x ∈ t.1, x ∉ t.2 → Relation.TransGen (edgeP g) x d) →
      freshCount g t.1 < fuel →
      TopoOrdered g (visitT g fuel d t).2 ∧ d ∈ (visitT g fuel d t).2 ∧
      (∀ x ∈ (visitT g fuel d t).1, x ∉ (visitT g fuel d t).2 →
        x ∈ t.1 ∧ x ∉ t.2)) :
    ∀ ds s, (∀ d ∈ ds, d ∈ depsOf g cur) →
    (∀ x ∈ s.2, x ∈ s.1) → (∀ x ∈ s.2, presentB g x = true) → s.2.Nodup →
    TopoOrdered g s.2 →
    (∀ x ∈ s.1, x ∉ s.2 → Relation.ReflTransGen (edgeP g) x cur) →
    freshCount g s.1 < fuel →
    TopoOrdered g (visitList (fun d t => visitT g fuel d t) ds s).2 ∧
    (∀ d ∈ ds, d ∈ (visitList (fun d t => visitT g fuel d t) ds s).2) ∧
    (∀ x ∈ (visitList (fun d t => visitT g fuel d t) ds s).1,
      x ∉ (visitList (fun d t => visitT g fuel d t) ds s).2 →
      x ∈ s.1 ∧ x ∉ s.2) := by
  intro ds
  induction ds with
  | nil =>
    intro s _ _ _ _ htopo _ _
    exact ⟨htopo, by simp, fun x hx hnx => ⟨hx, hnx⟩⟩
  | cons d ds ih =>
    intro s hds hosub hopres hnodup htopo hgray hfresh
    simp only [visitList]
    have hd : d ∈ depsOf g cur := hds d (List.mem_cons_self d ds)
    have hdpres : presentB g d = true := present_of_dep hdp hcur hd
    have hedge : edgeP g cur d := ⟨hcur, hdpres, hd⟩
    -- the recursive visit of d
    have hgrayd : ∀ x ∈ s.1, x ∉ s.2 → Relation.TransGen (edgeP g) x d := by
      intro x hx hnx
      exact Relation.TransGen.tail' (hgray x hx hnx) hedge
    obtain ⟨topo1, dmem1, shrink1⟩ :=
      hrec d s hdpres hosub hopres hnodup htopo hgrayd hfresh
    have hbasic1 := (visitT_basic g fuel d s s.1 hosub hopres hnodup
      (fun x _ hxv => Or.inl hxv)).1
    set t1 := visitT g fuel d s with ht1
    -- the rest of the loop
    have hgray1 : ∀ x ∈ t1.1, x ∉ t1.2 → Relation.ReflTransGen (edgeP g) x cur := by
      intro x hx hnx
      obtain ⟨hxs, hxo⟩ := shrink1 x hx hnx
      exact hgray x hxs hxo
    have hfresh1 : freshCount g t1.1 < fuel :=
      lt_of_le_of_lt (freshCount_le_of_subset g hbasic1.vmono) hfresh
    obtain ⟨topo2, dmem2, shrink2⟩ := ih t1
      (fun x hx => hds x (List.mem_cons_of_mem _ hx))
      hbasic1.osub hbasic1.opres hbasic1.onodup topo1 hgray1 hfresh1
    have hbasic2 := visitList_basic g t1.1 (fun d t => visitT g fuel d t)
      (fun d' t ho hp hn hc => (visitT_basic g fuel d' t t1.1 ho hp hn hc).1)
      ds t1 hbasic1.osub hbasic1.opres hbasic1.onodup
      (fun x _ hxv => Or.inl hxv)
    refine ⟨topo2, ?_, ?_⟩
    · intro d' hd'
      rcases List.mem_cons.mp hd' with rfl | hd''
      · obtain ⟨Δ, he, _⟩ := hbasic2.onew
        rw [he]
        exact List.mem_append_left _ dmem1
      · exact dmem2 d' hd''
    · intro x hx hnx
      obtain ⟨hx1, hn1⟩ := shrink2 x hx hnx
      exact shrink1 x hx1 hn1

/-- Conditional correctness of `visit`: with acyclicity, presence of all
dependencies and sufficient fuel, visiting a present node keeps the
order topologically sorted and appends the node after its
dependencies. -/
lemma visitT_topo {α : Type} (g : ComputationGraph α)
    (hac : AcyclicP g) (hdp : DepsPresent g) :
    ∀ fuel (cur : String) s, presentB g cur = true →
    (∀ x ∈ s.2, x ∈ s.1) → (∀ x ∈ s.2, presentB g x = true) → s.2.Nodup →
    TopoOrdered g s.2 →
    (∀ x ∈ s.1, x ∉ s.2 → Relation.TransGen (edgeP g) x cur) →
    freshCount g s.1 < fuel →
    TopoOrdered g (visitT g fuel cur s).2 ∧ cur ∈ (visitT g fuel cur s).2 ∧
    (∀ x ∈ (visitT g fuel cur s).1, x ∉ (visitT g fuel cur s).2 →
      x ∈ s.1 ∧ x ∉ s.2) := by
  intro fuel
  induction fuel with
  | zero =>
    intro cur s _ _ _ _ _ _ hfresh
    exact absurd hfresh (Nat.not_lt_zero _)
  | succ fuel ih =>
    intro cur s hcur hosub hopres hnodup htopo hgray hfresh
    by_cases hv : cur ∈ s.1
    · have heq : visitT g (fuel + 1) cur s = s := by
        simp only [visitT]
        rw [if_pos hv]
      rw [heq]
      have hcuro : cur ∈ s.2 := by
        by_contra hno
        exact hac cur (hgray cur hv hno)
      exact ⟨htopo, hcuro, fun x hx hnx => ⟨hx, hnx⟩⟩
    · cases hfind : findNode g cur with
      | none =>
        exact absurd hcur (by simp [presentB, hfind])
      | some node =>
        set s1 := visitList (fun d t => visitT g fuel d t)
          node.dependencies (cur :: s.1, s.2) with hs1
        have heq : visitT g (fuel + 1) cur s = (s1.1, s1.2 ++ [cur]) := by
          simp only [visitT]
          rw [if_neg hv, hfind]
        have hdeps_eq : depsOf g cur = node.dependencies := depsOf_eq_of_find hfind
        have hosub0 : ∀ x ∈ ((cur :: s.1, s.2) :
            List String × List String).2, x ∈ (cur :: s.1, s.2).1 :=
          fun x hx => List.mem_cons_of_mem _ (hosub x hx)
        have hgray0 : ∀ x ∈ (cur :: s.1, s.2).1, x ∉ (cur :: s.1, s.2).2 →
            Relation.ReflTransGen (edgeP g) x cur := by
          intro x hx hnx
          rcases List.mem_cons.mp hx with rfl | hx'
          · exact Relation.ReflTransGen.refl
          · exact (hgray x hx' hnx).to_reflTransGen
        have hfresh0 : freshCount g (cur :: s.1) < fuel := by
          have h1 : freshCount g (cur :: s.1) < freshCount g s.1 :=
            freshCount_lt_cons g (mem_allIds_of_present hcur) hv
          omega
        obtain ⟨topo1, dmem1, shrink1⟩ := visitList_topo g hac hdp fuel cur hcur
          (fun d t hp ho hpr hn ht hg hf => ih d t hp ho hpr hn ht hg hf)
          node.dependencies (cur :: s.1, s.2)
          (fun d hd => hdeps_eq ▸ hd) hosub0 hopres hnodup htopo hgray0 hfresh0
        have hbasic := visitList_basic g (cur :: s.1)
          (fun d t => visitT g fuel d t)
          (fun d' t ho hp hn hc => (visitT_basic g fuel d' t (cur :: s.1) ho hp hn hc).1)
          node.dependencies (cur :: s.1, s.2) hosub0 hopres hnodup
          (fun x _ hxv => Or.inl hxv)
        obtain ⟨Δ₁, he₁, hf₁⟩ := hbasic.onew
        have hcurno1 : cur ∉ s1.2 := by
          rw [he₁]
          intro hmem
          rcases List.mem_append.mp hmem with h | h
          · exact hv (hosub cur h)
          · exact hf₁ cur h (List.mem_cons_self _ _)
        rw [heq]
        refine ⟨?_, List.mem_append_right _ (by simp), ?_⟩
        · refine topoOrdered_append topo1 hcurno1 ?_
          intro b hb
          have hbdep : b ∈ node.dependencies := hdeps_eq ▸ hb.2.2
          exact dmem1 b hbdep
        · intro x hx hnx
          have hx1 : x ∉ s1.2 := fun hm => hnx (List.mem_append_left _ hm)
          have hxc : x ≠ cur := fun e => hnx (e ▸ List.mem_append_right _ (by simp))
          obtain ⟨hxv0, hxo0⟩ := shrink1 x hx hx1
          rcases List.mem_cons.mp hxv0 with rfl | hxv'
          · exact absurd rfl hxc
          · exact ⟨hxv', hxo0⟩

/-- Unconditional facts about the root loop of `_topological_sort`:
`VStep` with empty pending set, and every processed root is visited. -/
lemma topoAux_basic {α : Type} (g : ComputationGraph α) :
    ∀ roots s, (∀ x ∈ s.2, x ∈ s.1) → (∀ x ∈ s.2, presentB g x = true) →
    s.2.Nodup → (∀ x, presentB g x = true → x ∈ s.1 → x ∈ ([] : List String) ∨ x ∈ s.2) →
    VStep g [] s (topoAux g roots s) ∧
    (∀ r ∈ roots, r ∈ (topoAux g roots s).1) := by
  intro roots
  induction roots with
  | nil =>
    intro s hosub hopres hnodup hcover
    exact ⟨VStep.refl_of hosub hopres hnodup hcover, by simp⟩
  | cons nid roots ih =>
    intro s hosub hopres hnodup hcover
    simp only [topoAux]
    obtain ⟨h1, hin⟩ := visitT_basic g (topoFuel g) nid s [] hosub hopres hnodup hcover
    obtain ⟨h2, hroots⟩ := ih (visitT g (topoFuel g) nid s)
      h1.osub h1.opres h1.onodup h1.cover
    refine ⟨h1.trans h2, ?_⟩
    intro r hr
    rcases List.mem_cons.mp hr with rfl | hr'
    · exact h2.vmono r (hin (by unfold topoFuel; omega))
    · exact hroots r hr'

/-- The computed DFS post-order of the whole graph. -/
def topoOrderOf {α : Type} (g : ComputationGraph α) : List String :=
  (topoAux g (nodeIds g) ([], [])).2

/-- Unconditionally, the DFS post-order is duplicate-free, contains only
present ids, and contains every present id. -/
lemma topoOrderOf_basic {α : Type} (g : ComputationGraph α) :
    (topoOrderOf g).Nodup ∧ (∀ x ∈ topoOrderOf g, presentB g x = true) ∧
    (∀ x, presentB g x = true → x ∈ topoOrderOf g) := by
  obtain ⟨hstep, hroots⟩ := topoAux_basic g (nodeIds g) ([], [])
    (by simp) (by simp) List.nodup_nil (by simp)
  refine ⟨hstep.onodup, hstep.opres, ?_⟩
  intro x hx
  have hv : x ∈ (topoAux g (nodeIds g) ([], [])).1 :=
    hroots x ((presentB_iff_mem_nodeIds g x).mp hx)
  rcases hstep.cover x hx hv with h | h
  · exact absurd h (by simp)
  · exact h

/-- With acyclicity and present dependencies, the root loop preserves
the no-gray invariant and topological ordering. -/
lemma topoAux_topo {α : Type} (g : ComputationGraph α)
    (hac : AcyclicP g) (hdp : DepsPresent g) :
    ∀ roots s, (∀ r ∈ roots, presentB g r = true) →
    (∀ x ∈ s.2, x ∈ s.1) → (∀ x ∈ s.2, presentB g x = true) → s.2.Nodup →
    TopoOrdered g s.2 → (∀ x ∈ s.1, x ∈ s.2) →
    TopoOrdered g (topoAux g roots s).2 := by
  intro roots
  induction roots with
  | nil =>
    intro s _ _ _ _ htopo _
    exact htopo
  | cons nid roots ih =>
    intro s hroots hosub hopres hnodup htopo hnogray
    simp only [topoAux]
    have hfresh : freshCount g s.1 < topoFuel g := by
      have := freshCount_le_allIds g s.1
      unfold topoFuel
      omega
    obtain ⟨topo1, hnid1, shrink1⟩ := visitT_topo g hac hdp (topoFuel g) nid s
      (hroots nid (List.mem_cons_self _ _)) hosub hopres hnodup htopo
      (fun x hx hnx => absurd (hnogray x hx) hnx) hfresh
    have hbasic := (visitT_basic g (topoFuel g) nid s s.1 hosub hopres hnodup
      (fun x _ hxv => Or.inl hxv)).1
    refine ih (visitT g (topoFuel g) nid s)
      (fun r hr => hroots r (List.mem_cons_of_mem _ hr))
      hbasic.osub hbasic.opres hbasic.onodup topo1 ?_
    intro x hx
    by_contra hnx
    obtain ⟨hxs, hxo⟩ := shrink1 x hx hnx
    exact hxo (hnogray x hxs)

/-- With acyclicity and present dependencies the DFS post-order is a
topological order. -/
lemma topoOrderOf_topo {α : Type} (g : ComputationGraph α)
    (hac : AcyclicP g) (hdp : DepsPresent g) : TopoOrdered g (topoOrderOf g) :=
  topoAux_topo g hac hdp (nodeIds g) ([], [])
    (fun r hr => (presentB_iff_mem_nodeIds g r).mpr hr)
    (by simp) (by simp) List.nodup_nil (fun a b ha => by simp at ha) (by simp)

/-- For an acyclic graph `_validate_dag` passes and `_topological_sort`
returns the DFS post-order. -/
lemma topological_sort_ok {α : Type} (g : ComputationGraph α)
    (hac : AcyclicP g) : topological_sort g = .ok (topoOrderOf g) := by
  have hval : validate_dag g = true := by
    by_cases h : validate_dag g = true
    · exact h
    · obtain ⟨a, ha⟩ := validate_dag_sound g (Bool.eq_false_iff.mpr h)
      exact absurd ha (hac a)
  simp [topological_sort, hval, topoOrderOf]

/-- Conversely, whenever `_topological_sort` succeeds, the returned
order is the DFS post-order. -/
lemma topological_sort_ok_inv {α : Type} (g : ComputationGraph α)
    {o : List String} (h : topological_sort g = .ok o) :
    o = topoOrderOf g ∧ validate_dag g = true := by
  by_cases hval : validate_dag g = true
  · refine ⟨?_, hval⟩
    simp only [topological_sort, hval, if_true] at h
    cases h
    rfl
  · simp only [topological_sort, hval, if_false, Bool.false_eq_true] at h
    cases h

/-! ## The parallel-batch partition (`get_parallel_batches`) -/

/-- Structural soundness of the batch loop: the batches exactly cover
the remaining ids, preserve duplicate-freedom, and every node of batch
`k` has all dependencies in the initially-completed ids or in batches
before `k`. -/
lemma batchesAux_sound {α : Type} (g : ComputationGraph α) :
    ∀ fuel remaining completed bs,
    batchesAux g fuel remaining completed = .ok bs →
    (∀ x, x ∈ bs.flatten ↔ x ∈ remaining) ∧
    ((completed ++ remaining).Nodup → (completed ++ bs.flatten).Nodup) ∧
    (∀ k, (hk : k < bs.length) → ∀ nid ∈ bs.get ⟨k, hk⟩, ∀ d ∈ depsOf g nid,
      d ∈ completed ++ (bs.take k).flatten) := by
  intro fuel
  induction fuel with
  | zero =>
    intro remaining completed bs h
    simp only [batchesAux] at h
    by_cases hre : remaining.isEmpty
    · rw [if_pos hre] at h
      cases h
      have : remaining = [] := List.isEmpty_iff.mp hre
      subst this
      exact ⟨by simp, by simp, fun k hk => by simp at hk⟩
    · rw [if_neg hre] at h
      cases h
  | succ fuel ih =>
    intro remaining completed bs h
    simp only [batchesAux] at h
    by_cases hre : remaining.isEmpty
    · rw [if_pos hre] at h
      cases h
      have : remaining = [] := List.isEmpty_iff.mp hre
      subst this
      exact ⟨by simp, by simp, fun k hk => by simp at hk⟩
    · rw [if_neg hre] at h
      set p := fun nid => (depsOf g nid).all (fun d => decide (d ∈ completed)) with hp
      set batch := remaining.filter p with hbatch
      by_cases hbe : batch.isEmpty
      · rw [if_pos hbe] at h
        cases h
      · rw [if_neg hbe] at h
        set remaining' := remaining.filter (fun nid => decide (nid ∉ batch)) with hrem
        cases hrec : batchesAux g fuel remaining' (completed ++ batch) with
        | error e =>
          rw [hrec] at h
          cases h
        | ok rest =>
          rw [hrec] at h
          cases h
          obtain ⟨f1, f2, f3⟩ := ih remaining' (completed ++ batch) rest hrec
          have hbsub : ∀ x ∈ batch, x ∈ remaining :=
            fun x hx => (List.mem_filter.mp hx).1
          have hrsub : ∀ x ∈ remaining', x ∈ remaining :=
            fun x hx => (List.mem_filter.mp hx).1
          have hsplit : ∀ x ∈ remaining, x ∈ batch ∨ x ∈ remaining' := by
            intro x hx
            by_cases hxb : x ∈ batch
            · exact Or.inl hxb
            · exact Or.inr (List.mem_filter.mpr ⟨hx, by simpa using hxb⟩)
          refine ⟨?_, ?_, ?_⟩
          · intro x
            simp only [List.flatten_cons, List.mem_append]
            constructor
            · intro hx
              rcases hx with hx | hx
              · exact hbsub x hx
              · exact hrsub x ((f1 x).mp hx)
            · intro hx
              rcases hsplit x hx with hx' | hx'
              · exact Or.inl hx'
              · exact Or.inr ((f1 x).mpr hx')
          · intro hno
            have hcongr : remaining' = remaining.filter (fun x => !(p x)) := by
              apply List.filter_congr
              intro x hx
              by_cases hpx : p x = true
              · have hxb : x ∈ batch := List.mem_filter.mpr ⟨hx, hpx⟩
                simp [hxb, hpx]
              · have hxb : x ∉ batch := fun hm => hpx (List.mem_filter.mp hm).2
                simp [hxb, hpx]
            have hperm : (batch ++ remaining').Perm remaining := by
              rw [hcongr, hbatch]
              exact List.filter_append_perm p remaining
            have hperm2 : (completed ++ (batch ++ remaining')).Perm
                (completed ++ remaining) := List.Perm.append_left completed hperm
            have hno2 : ((completed ++ batch) ++ remaining').Nodup := by
              rw [List.append_assoc]
              exact (List.Perm.nodup_iff hperm2).mpr hno
            have := f2 hno2
            rw [List.flatten_cons, ← List.append_assoc]
            rwa [List.append_assoc] at this ⊢
          · intro k hk nid hnid d hd
            cases k with
            | zero =>
              have hpn : p nid = true := (List.mem_filter.mp hnid).2
              rw [hp] at hpn
              have := List.all_eq_true.mp hpn d hd
              simp only [decide_eq_true_eq] at this
              simpa using this
            | succ k =>
              have hk' : k < rest.length := by simpa using hk
              have hmem := f3 k hk' nid (by simpa using hnid) d hd
              simp only [List.take_succ_cons, List.flatten_cons]
              rw [← List.append_assoc]
              exact hmem

/-- Progress of the batch loop: with enough fuel, under a topological
order covering the remaining ids, the loop succeeds. -/
lemma batchesAux_progress {α : Type} (g : ComputationGraph α)
    (hdp : DepsPresent g) (o : List String) (ho : TopoOrdered g o) :
    ∀ fuel remaining completed, remaining.length < fuel →
    (∀ x ∈ remaining, x ∈ o) → (∀ x ∈ remaining, presentB g x = true) →
    (∀ nid ∈ remaining, ∀ d ∈ depsOf g nid, d ∈ completed ∨ d ∈ remaining) →
    ∃ bs, batchesAux g fuel remaining completed = .ok bs := by
  intro fuel
  induction fuel with
  | zero =>
    intro remaining completed hlen _ _ _
    exact absurd hlen (Nat.not_lt_zero _)
  | succ fuel ih =>
    intro remaining completed hlen hsub hpres hpart
    simp only [batchesAux]
    by_cases hre : remaining.isEmpty
    · rw [if_pos hre]
      exact ⟨[], rfl⟩
    · rw [if_neg hre]
      set p := fun nid => (depsOf g nid).all (fun d => decide (d ∈ completed)) with hp
      set batch := remaining.filter p with hbatch
      have hne : remaining ≠ [] := by
        intro e
        rw [e] at hre
        exact hre rfl
      obtain ⟨x, hx, hmin⟩ := exists_min_measure (idxOf o) remaining hne
      have hxbatch : x ∈ batch := by
        rw [hbatch]
        refine List.mem_filter.mpr ⟨hx, ?_⟩
        rw [hp]
        rw [List.all_eq_true]
        intro d hd
        simp only [decide_eq_true_eq]
        rcases hpart x hx d hd with hc | hr
        · exact hc
        · have hedge : edgeP g x d :=
            ⟨hpres x hx, present_of_dep hdp (hpres x hx) hd, hd⟩
          obtain ⟨hdo, hlt⟩ := ho x d (hsub x hx) hedge
          exact absurd (hmin d hr) (by omega)
      have hbne : ¬ batch.isEmpty := by
        intro hbe
        rw [List.isEmpty_iff.mp hbe] at hxbatch
        simp at hxbatch
      rw [if_neg hbne]
      set remaining' := remaining.filter (fun nid => decide (nid ∉ batch)) with hrem
      have hlen' : remaining'.length < remaining.length := by
        refine filter_length_lt _ _ x hx ?_
        simp [hxbatch]
      have hpart' : ∀ nid ∈ remaining', ∀ d ∈ depsOf g nid,
          d ∈ completed ++ batch ∨ d ∈ remaining' := by
        intro nid hnid d hd
        have hnid' : nid ∈ remaining := (List.mem_filter.mp hnid).1
        rcases hpart nid hnid' d hd with hc | hr
        · exact Or.inl (List.mem_append_left _ hc)
        · by_cases hdb : d ∈ batch
          · exact Or.inl (List.mem_append_right _ hdb)
          · exact Or.inr (List.mem_filter.mpr ⟨hr, by simpa using hdb⟩)
      obtain ⟨bs, hbs⟩ := ih remaining' (completed ++ batch)
        (by omega)
        (fun y hy => hsub y ((List.mem_filter.mp hy).1))
        (fun y hy => hpres y ((List.mem_filter.mp hy).1))
        hpart'
      exact ⟨batch :: bs, by rw [hbs]; rfl⟩

lemma mem_flatten_of_get {β : Type} (bs : List (List β)) (k : ℕ)
    (hk : k < bs.length) {x : β} (hx : x ∈ bs.get ⟨k, hk⟩) : x ∈ bs.flatten :=
  List.mem_flatten.mpr ⟨bs.get ⟨k, hk⟩, List.get_mem bs k hk, hx⟩

lemma mem_take_flatten_exists {β : Type} (bs : List (List β)) (j : ℕ) {d : β}
    (hd : d ∈ (bs.take j).flatten) :
    ∃ i, ∃ hi : i < bs.length, i < j ∧ d ∈ bs.get ⟨i, hi⟩ := by
  induction bs generalizing j with
  | nil => simp at hd
  | cons b bs ih =>
    cases j with
    | zero => simp at hd
    | succ j =>
      simp only [List.take_succ_cons, List.flatten_cons, List.mem_append] at hd
      rcases hd with hd | hd
      · exact ⟨0, by simp, Nat.succ_pos j, hd⟩
      · obtain ⟨i, hi, hij, hmem⟩ := ih j hd
        exact ⟨i + 1, by simpa using Nat.succ_lt_succ hi,
          Nat.succ_lt_succ hij, by simpa using hmem⟩

/-- The batches of a duplicate-free concatenation are pairwise
disjoint. -/
lemma flatten_nodup_disjoint {β : Type} :
    ∀ bs : List (List β), bs.flatten.Nodup →
    ∀ i j, ∀ hi : i < bs.length, ∀ hj : j < bs.length, i ≠ j →
    ∀ x ∈ bs.get ⟨i, hi⟩, x ∉ bs.get ⟨j, hj⟩ := by
  intro bs
  induction bs with
  | nil => intro _ i j hi; simp at hi
  | cons b bs ih =>
    intro hnd i j hi hj hne x hx hx'
    rw [List.flatten_cons, List.nodup_append] at hnd
    obtain ⟨hb, hrest, hdisj⟩ := hnd
    cases i with
    | zero =>
      cases j with
      | zero => exact hne rfl
      | succ j =>
        have hx'' : x ∈ bs.flatten :=
          mem_flatten_of_get bs j (by simpa using hj) (by simpa using hx')
        exact hdisj (by simpa using hx) hx''
    | succ i =>
      cases j with
      | zero =>
        have hx'' : x ∈ bs.flatten :=
          mem_flatten_of_get bs i (by simpa using hi) (by simpa using hx)
        exact hdisj (by simpa using hx') hx''
      | succ j =>
        exact ih hrest i j (by simpa using hi) (by simpa using hj)
          (fun e => hne (by rw [e])) x (by simpa using hx) (by simpa using hx')

/-- Decomposition of the concatenation around batch `j`. -/
lemma flatten_decomp {β : Type} (bs : List (List β)) (j : ℕ)
    (hj : j < bs.length) :
    bs.flatten = (bs.take j).flatten ++
      (bs.get ⟨j, hj⟩ ++ (bs.drop (j + 1)).flatten) := by
  have h1 : bs = bs.take j ++ bs.get ⟨j, hj⟩ :: bs.drop (j + 1) := by
    conv_lhs => rw [← List.take_append_drop j bs]
    rw [List.drop_eq_getElem_cons hj, List.get_eq_getElem]
  conv_lhs => rw [h1]
  rw [List.flatten_append, List.flatten_cons]

/-- `get_parallel_batches` on an acyclic graph with present dependencies:
it succeeds, the batches partition the DFS post-order without
duplicates, and each batch's dependencies sit in strictly earlier
batches. -/
lemma get_parallel_batches_ok {α : Type} (g : ComputationGraph α)
    (hac : AcyclicP g) (hdp : DepsPresent g) :
    ∃ bs, get_parallel_batches g = .ok bs ∧
      (∀ x, x ∈ bs.flatten ↔ x ∈ topoOrderOf g) ∧
      bs.flatten.Nodup ∧
      (∀ k, ∀ hk : k < bs.length, ∀ nid ∈ bs.get ⟨k, hk⟩, ∀ d ∈ depsOf g nid,
        d ∈ (bs.take k).flatten) := by
  obtain ⟨hnd, hpres, hcov⟩ := topoOrderOf_basic g
  have htopo := topoOrderOf_topo g hac hdp
  obtain ⟨bs, hbs⟩ := batchesAux_progress g hdp (topoOrderOf g) htopo
    ((topoOrderOf g).length + 1) (topoOrderOf g) []
    (by omega) (fun x hx => hx) hpres
    (fun nid hnid d hd =>
      Or.inr (hcov d (present_of_dep hdp (hpres nid hnid) hd)))
  obtain ⟨f1, f2, f3⟩ := batchesAux_sound g _ _ _ _ hbs
  refine ⟨bs, ?_, f1, ?_, ?_⟩
  · have hts := topological_sort_ok g hac
    unfold get_parallel_batches
    rw [hts]
    exact hbs
  · simpa using f2 (by simpa using hnd)
  · intro k hk nid hnid d hd
    simpa using f3 k hk nid hnid d hd

/-- A duplicate-free batch partition whose per-batch dependencies lie in
strictly earlier batches concatenates to a topological order. -/
lemma batches_topoOrdered {α : Type} (g : ComputationGraph α)
    {bs : List (List String)} (hnd : bs.flatten.Nodup)
    (hdeps : ∀ k, ∀ hk : k < bs.length, ∀ nid ∈ bs.get ⟨k, hk⟩,
      ∀ d ∈ depsOf g nid, d ∈ (bs.take k).flatten) :
    TopoOrdered g bs.flatten := by
  intro a b ha hab
  obtain ⟨s, hs, has⟩ := List.mem_flatten.mp ha
  obtain ⟨⟨j, hj⟩, hget⟩ := List.mem_iff_get.mp hs
  rw [← hget] at has
  have hb' : b ∈ (bs.take j).flatten := hdeps j hj a has b hab.2.2
  have hbfl : b ∈ bs.flatten := by
    obtain ⟨i, hi, _, hmem⟩ := mem_take_flatten_exists bs j hb'
    exact mem_flatten_of_get bs i hi hmem
  refine ⟨hbfl, ?_⟩
  have hdecomp := flatten_decomp bs j hj
  have hnd' := hnd
  rw [hdecomp, List.nodup_append] at hnd'
  have hanotL : a ∉ (bs.take j).flatten := fun haL =>
    hnd'.2.2 haL (List.mem_append_left _ has)
  rw [hdecomp, idxOf_append_left _ hb', idxOf_append_right _ hanotL]
  have := idxOf_lt_length hb'
  omega

/-! ## Claim C4: topological order and its batch refinement -/

/-- C4: for every acyclic graph whose dependencies all name present
nodes, `_topological_sort` succeeds with an order placing every node
after all of its dependencies and covering every node, and
`get_parallel_batches` succeeds with a partition that refines it: the
concatenation of the batches in order is itself a topological order
covering every node, and a node's batch index is strictly greater than
the batch index of each of its dependencies. -/
theorem c4_topo_and_batch_refinement {α : Type} (g : ComputationGraph α)
    (hac : AcyclicP g) (hdp : DepsPresent g) :
    ∃ o, topological_sort g = .ok o ∧ TopoOrdered g o ∧
      (∀ x, presentB g x = true → x ∈ o) ∧
      ∃ bs, get_parallel_batches g = .ok bs ∧
        TopoOrdered g bs.flatten ∧
        (∀ x, presentB g x = true → x ∈ bs.flatten) ∧
        (∀ j k, ∀ hj : j < bs.length, ∀ hk : k < bs.length,
          ∀ nid ∈ bs.get ⟨j, hj⟩, ∀ d ∈ depsOf g nid,
            d ∈ bs.get ⟨k, hk⟩ → k < j) := by
  obtain ⟨hnodup, hpres, hcov⟩ := topoOrderOf_basic g
  refine ⟨topoOrderOf g, topological_sort_ok g hac,
    topoOrderOf_topo g hac hdp, hcov, ?_⟩
  obtain ⟨bs, hbs, hiff, hnd, hdeps⟩ := get_parallel_batches_ok g hac hdp
  refine ⟨bs, hbs, batches_topoOrdered g hnd hdeps, ?_, ?_⟩
  · intro x hx
    exact (hiff x).mpr (hcov x hx)
  · intro j k hj hk nid hnid d hd hdk
    have hb' := hdeps j hj nid hnid d hd
    obtain ⟨i, hi, hij, hmem⟩ := mem_take_flatten_exists bs j hb'
    by_cases hik : i = k
    · subst hik
      omega
    · exact absurd hdk (flatten_nodup_disjoint bs hnd i k hi hk hik d hmem)

/-- A diamond graph: B and C both depend on A, D depends on B and C. -/
def diaG : ComputationGraph ℕ :=
  ⟨[ { id := "A", name := "node A", compute_fn := fun _ _ => .ok 0 },
     { id := "B", name := "node B", compute_fn := fun _ _ => .ok 1,
       dependencies := ["A"] },
     { id := "C", name := "node C", compute_fn := fun _ _ => .ok 2,
       dependencies := ["A"] },
     { id := "D", name := "node D", compute_fn := fun _ _ => .ok 3,
       dependencies := ["B", "C"] } ]⟩

/-- Witness for C4 on the concrete diamond graph: its acyclicity is
obtained from the concrete run of `_validate_dag`, and `DepsPresent` is
checked by evaluation. -/
theorem c4_topo_and_batch_refinement_witness :
    ∃ o, topological_sort diaG = .ok o ∧ TopoOrdered diaG o ∧
      (∀ x, presentB diaG x = true → x ∈ o) ∧
      ∃ bs, get_parallel_batches diaG = .ok bs ∧
        TopoOrdered diaG bs.flatten ∧
        (∀ x, presentB diaG x = true → x ∈ bs.flatten) ∧
        (∀ j k, ∀ hj : j < bs.length, ∀ hk : k < bs.length,
          ∀ nid ∈ bs.get ⟨j, hj⟩, ∀ d ∈ depsOf diaG nid,
            d ∈ bs.get ⟨k, hk⟩ → k < j) :=
  c4_topo_and_batch_refinement diaG
    (validate_dag_complete diaG (by decide))
    (by unfold DepsPresent; decide)

/-! ## The execution fold over the batches -/

/-- The accumulated results dict after executing a list of batches. -/
def execAcc {α : Type} (g : ComputationGraph α) (ctx : Ctx)
    (bs : List (List String)) : List (String × ComputationResult α) :=
  bs.foldl (executeBatch g ctx) []

/-- A successful `find?` is preserved by appending on the right. -/
lemma find?_append_some {β : Type} {p : β → Bool} {l₁ : List β}
    (l₂ : List β) {a : β} (h : l₁.find? p = some a) :
    (l₁ ++ l₂).find? p = some a := by
  induction l₁ with
  | nil => simp at h
  | cons x xs ih =>
    rw [List.cons_append]
    cases hx : p x with
    | true =>
      rw [List.find?_cons_of_pos _ hx] at h
      rw [List.find?_cons_of_pos _ hx]
      exact h
    | false =>
      rw [List.find?_cons_of_neg _ (by simp [hx])] at h
      rw [List.find?_cons_of_neg _ (by simp [hx])]
      exact ih h

/-- A failed `find?` defers to the appended list. -/
lemma find?_append_none {β : Type} {p : β → Bool} {l₁ : List β}
    (l₂ : List β) (h : l₁.find? p = none) :
    (l₁ ++ l₂).find? p = l₂.find? p := by
  induction l₁ with
  | nil => rfl
  | cons x xs ih =>
    rw [List.cons_append]
    cases hx : p x with
    | true => rw [List.find?_cons_of_pos _ hx] at h; cases h
    | false =>
      rw [List.find?_cons_of_neg _ (by simp [hx])] at h
      rw [List.find?_cons_of_neg _ (by simp [hx])]
      exact ih h

/-- Recorded results survive appending further results (Python dict
entries are never overwritten by `execute`). -/
lemma lookupRes_append_some {α : Type}
    {R : List (String × ComputationResult α)}
    (N : List (String × ComputationResult α)) {x : String}
    {r : ComputationResult α} (h : lookupRes R x = some r) :
    lookupRes (R ++ N) x = some r := by
  unfold lookupRes at h ⊢
  cases hf : R.find? (fun e => e.1 == x) with
  | none => rw [hf] at h; simp at h
  | some a =>
    rw [hf] at h
    rw [find?_append_some N hf]
    exact h

/-- Lookups of unrecorded keys defer to the appended results. -/
lemma lookupRes_append_none {α : Type}
    {R : List (String × ComputationResult α)}
    (N : List (String × ComputationResult α)) {x : String}
    (h : lookupRes R x = none) :
    lookupRes (R ++ N) x = lookupRes N x := by
  unfold lookupRes at h ⊢
  cases hf : R.find? (fun e => e.1 == x) with
  | some a => rw [hf] at h; simp at h
  | none => rw [find?_append_none N hf]

/-- A key is unrecorded iff it is none of the recorded keys. -/
lemma lookupRes_eq_none_iff {α : Type}
    (R : List (String × ComputationResult α)) (x : String) :
    lookupRes R x = none ↔ x ∉ R.map Prod.fst := by
  unfold lookupRes
  constructor
  · intro h hx
    obtain ⟨e, he, hfst⟩ := List.mem_map.mp hx
    cases hf : R.find? (fun e => e.1 == x) with
    | some a => rw [hf] at h; simp at h
    | none =>
      have := List.find?_eq_none.mp hf e he
      rw [hfst] at this
      simp at this
  · intro h
    cases hf : R.find? (fun e => e.1 == x) with
    | some a =>
      have ha := List.find?_some hf
      have hmem := List.mem_of_find?_eq_some hf
      simp only [beq_iff_eq] at ha
      exact absurd (List.mem_map.mpr ⟨a, hmem, ha⟩) h
    | none => rfl

/-- Recorded results survive a batch execution. -/
lemma lookupRes_stable_batch {α : Type} (g : ComputationGraph α) (ctx : Ctx)
    {R : List (String × ComputationResult α)} (b : List String) {x : String}
    {r : ComputationResult α} (h : lookupRes R x = some r) :
    lookupRes (executeBatch g ctx R b) x = some r := by
  unfold executeBatch
  exact lookupRes_append_some _ h

/-- Recorded results survive any further fold of batch executions. -/
lemma lookupRes_stable_foldl {α : Type} (g : ComputationGraph α) (ctx : Ctx) :
    ∀ (bs : List (List String)) {R : List (String × ComputationResult α)}
    {x : String} {r : ComputationResult α}, lookupRes R x = some r →
    lookupRes (bs.foldl (executeBatch g ctx) R) x = some r := by
  intro bs
  induction bs with
  | nil => intro R x r h; simpa using h
  | cons b bs ih =>
    intro R x r h
    simp only [List.foldl_cons]
    exact ih (lookupRes_stable_batch g ctx b h)

/-- The keys recorded by one batch are exactly its (present) ids. -/
lemma filterMap_exec_keys {α : Type} (g : ComputationGraph α) (ctx : Ctx)
    (R : List (String × ComputationResult α)) :
    ∀ batch : List String, (∀ nid ∈ batch, presentB g nid = true) →
    (batch.filterMap (fun nid => (findNode g nid).map
      (fun node => (nid, executeNode g R ctx node)))).map Prod.fst = batch := by
  intro batch
  induction batch with
  | nil => intro _; rfl
  | cons nid rest ih =>
    intro hp
    have hs : (findNode g nid).isSome = true := hp nid (List.mem_cons_self _ _)
    obtain ⟨node, hnode⟩ := Option.isSome_iff_exists.mp hs
    simp only [List.filterMap_cons, hnode, Option.map_some', List.map_cons]
    rw [ih (fun y hy => hp y (List.mem_cons_of_mem _ hy))]

/-- Batch execution appends exactly the batch's keys. -/
lemma executeBatch_keys {α : Type} (g : ComputationGraph α) (ctx : Ctx)
    (R : List (String × ComputationResult α)) (batch : List String)
    (hp : ∀ nid ∈ batch, presentB g nid = true) :
    (executeBatch g ctx R batch).map Prod.fst = R.map Prod.fst ++ batch := by
  unfold executeBatch
  rw [List.map_append, filterMap_exec_keys g ctx R batch hp]

/-- One more batch of the fold. -/
lemma execAcc_take_succ {α : Type} (g : ComputationGraph α) (ctx : Ctx)
    (bs : List (List String)) (j : ℕ) (hj : j < bs.length) :
    execAcc g ctx (bs.take (j + 1)) =
      executeBatch g ctx (execAcc g ctx (bs.take j)) (bs.get ⟨j, hj⟩) := by
  unfold execAcc
  rw [List.take_succ, List.getElem?_eq_getElem hj, Option.toList_some,
    List.foldl_append, List.foldl_cons, List.foldl_nil, List.get_eq_getElem]

/-- The recorded keys after `j` batches are the first `j` batches. -/
lemma execAcc_keys {α : Type} (g : ComputationGraph α) (ctx : Ctx)
    (bs : List (List String))
    (hp : ∀ x ∈ bs.flatten, presentB g x = true) :
    ∀ j, (execAcc g ctx (bs.take j)).map Prod.fst = (bs.take j).flatten := by
  intro j
  induction j with
  | zero => rfl
  | succ j ih =>
    by_cases hj : j < bs.length
    · rw [execAcc_take_succ g ctx bs j hj,
        executeBatch_keys g ctx _ _
          (fun nid hnid => hp nid (mem_flatten_of_get bs j hj hnid)), ih]
      rw [List.take_succ, List.getElem?_eq_getElem hj, Option.toList_some,
        List.flatten_append, List.get_eq_getElem]
      simp
    · have he : bs.take (j + 1) = bs.take j := by
        rw [List.take_of_length_le (by omega), List.take_of_length_le (by omega)]
      rw [he, ih]

/-- Within a batch without duplicates, the result recorded for an id is
the one computed from the pre-batch results. -/
lemma find?_filterMap_exec {α : Type} (g : ComputationGraph α) (ctx : Ctx)
    (R : List (String × ComputationResult α)) :
    ∀ batch : List String, batch.Nodup → ∀ nid ∈ batch,
    ∀ node : ComputationNode α, findNode g nid = some node →
    (batch.filterMap (fun m => (findNode g m).map
        (fun n => (m, executeNode g R ctx n)))).find? (fun e => e.1 == nid) =
      some (nid, executeNode g R ctx node) := by
  intro batch
  induction batch with
  | nil => intro _ nid h; simp at h
  | cons b rest ih =>
    intro hnd nid hmem node hnode
    rcases List.mem_cons.mp hmem with rfl | hmem'
    · simp only [List.filterMap_cons, hnode, Option.map_some']
      exact List.find?_cons_of_pos _ (by simp)
    · have hbne : b ≠ nid := fun e => (List.nodup_cons.mp hnd).1 (e ▸ hmem')
      cases hfb : findNode g b with
      | none =>
        simp only [List.filterMap_cons, hfb, Option.map_none']
        exact ih (List.nodup_cons.mp hnd).2 nid hmem' node hnode
      | some nb =>
        simp only [List.filterMap_cons, hfb, Option.map_some']
        rw [List.find?_cons_of_neg _ (by simpa using hbne)]
        exact ih (List.nodup_cons.mp hnd).2 nid hmem' node hnode

/-- After its batch runs, a node's recorded result is `executeNode`
applied to the results accumulated before the batch. -/
lemma execAcc_lookup_batch {α : Type} (g : ComputationGraph α) (ctx : Ctx)
    (bs : List (List String))
    (hp : ∀ x ∈ bs.flatten, presentB g x = true)
    (hnd : bs.flatten.Nodup) (j : ℕ) (hj : j < bs.length)
    {nid : String} (hnid : nid ∈ bs.get ⟨j, hj⟩)
    {node : ComputationNode α} (hnode : findNode g nid = some node) :
    lookupRes (execAcc g ctx (bs.take (j + 1))) nid =
      some (executeNode g (execAcc g ctx (bs.take j)) ctx node) := by
  rw [execAcc_take_succ g ctx bs j hj]
  have hnd' := hnd
  rw [flatten_decomp bs j hj, List.nodup_append] at hnd'
  have hnotin : nid ∉ (bs.take j).flatten := fun hmem =>
    hnd'.2.2 hmem (List.mem_append_left _ hnid)
  have hnone : lookupRes (execAcc g ctx (bs.take j)) nid = none := by
    rw [lookupRes_eq_none_iff, execAcc_keys g ctx bs hp j]
    exact hnotin
  unfold executeBatch
  rw [lookupRes_append_none _ hnone]
  have hbnodup : (bs.get ⟨j, hj⟩).Nodup := (List.nodup_append.mp hnd'.2.1).1
  unfold lookupRes
  rw [find?_filterMap_exec g ctx _ _ hbnodup nid hnid node hnode]
  rfl

/-- The full fold restarts from any prefix. -/
lemma execAcc_eq_drop_foldl {α : Type} (g : ComputationGraph α) (ctx : Ctx)
    (bs : List (List String)) (j : ℕ) :
    execAcc g ctx bs =
      (bs.drop j).foldl (executeBatch g ctx) (execAcc g ctx (bs.take j)) := by
  unfold execAcc
  conv_lhs => rw [← List.take_append_drop j bs]
  rw [List.foldl_append]

/-- Inversion of a successful `execute`: the batches succeeded and the
results are the fold over them. -/
lemma execute_ok_inv {α : Type} (g : ComputationGraph α) (ctx : Ctx)
    {results : List (String × ComputationResult α)}
    (hex : g.execute ctx = .ok results) :
    ∃ bs, get_parallel_batches g = .ok bs ∧ results = execAcc g ctx bs := by
  unfold ComputationGraph.execute at hex
  cases hgb : get_parallel_batches g with
  | error e =>
    rw [hgb] at hex
    have hex' : (Except.error e : Except GraphError
        (List (String × ComputationResult α))) = .ok results := hex
    cases hex'
  | ok bs =>
    rw [hgb] at hex
    have hex' : (Except.ok (bs.foldl (executeBatch g ctx) []) :
        Except GraphError (List (String × ComputationResult α))) =
        .ok results := hex
    cases hex'
    exact ⟨bs, rfl, rfl⟩

/-! ## The canonical wallet-analysis graph (`WalletAnalysisGraphBuilder`) -/

/-- The dynamically-typed values flowing through the wallet-analysis
graph: the fetched wallet data dict, the numeric metrics, the
counterparty set, the pattern list, the `(score, deductions)` pair of
`compute_risk_score`, and the final report dict (the per-node timing
metadata of `computation_graph` is wall-clock data and is omitted). -/
inductive WValue where
  | wallet (balances : List Balance) (transfers : Transfers)
  | num (q : ℚ)
  | strs (l : List String)
  | pats (l : List Pattern)
  | scored (score : ℤ) (deductions : List Deduction)
  | report (address : String) (lookback_days : ℤ) (balances : List Balance)
      (transfers : Transfers) (concentration stablecoin_ratio : ℚ)
      (counterparty_count : ℕ) (counterparties : List String)
      (suspicious_patterns : List Pattern) (risk_score : ℤ)
      (risk_level : String) (deductions : List Deduction)

/-- `calc_concentration`: reads the fetched data of the `fetch_data`
dependency; a missing or `None` value raises (caught by
`_execute_node`). -/
def wCalcConcentration :
    Ctx → (String → Option (ComputationResult WValue)) → Except String WValue :=
  fun _ deps =>
    match deps "fetch_data" with
    | none => .error "AttributeError: 'NoneType' object has no attribute 'data'"
    | some r =>
      match r.data with
      | some (.wallet balances _) => .ok (.num (compute_concentration balances))
      | some _ => .error "TypeError: value is not subscriptable"
      | none => .error "TypeError: 'NoneType' object is not subscriptable"

/-- `calc_stablecoin`. -/
def wCalcStablecoin :
    Ctx → (String → Option (ComputationResult WValue)) → Except String WValue :=
  fun _ deps =>
    match deps "fetch_data" with
    | none => .error "AttributeError: 'NoneType' object has no attribute 'data'"
    | some r =>
      match r.data with
      | some (.wallet balances _) =>
          .ok (.num (compute_stablecoin_ratio balances))
      | some _ => .error "TypeError: value is not subscriptable"
      | none => .error "TypeError: 'NoneType' object is not subscriptable"

/-- `calc_counterparties`. -/
def wCalcCounterparties :
    Ctx → (String → Option (ComputationResult WValue)) → Except String WValue :=
  fun _ deps =>
    match deps "fetch_data" with
    | none => .error "AttributeError: 'NoneType' object has no attribute 'data'"
    | some r =>
      match r.data with
      | some (.wallet _ transfers) =>
          .ok (.strs (extract_counterparties transfers))
      | some _ => .error "TypeError: value is not subscriptable"
      | none => .error "TypeError: 'NoneType' object is not subscriptable"

/-- `calc_suspicious`. -/
def wCalcSuspicious :
    Ctx → (String → Option (ComputationResult WValue)) → Except String WValue :=
  fun _ deps =>
    match deps "fetch_data" with
    | none => .error "AttributeError: 'NoneType' object has no attribute 'data'"
    | some r =>
      match r.data with
      | some (.wallet _ transfers) =>
          .ok (.pats (detect_suspicious_patterns transfers))
      | some _ => .error "TypeError: value is not subscriptable"
      | none => .error "TypeError: 'NoneType' object is not subscriptable"

/-- `calc_risk`: Python evaluates the four arguments left to right, so
`len(deps["counterparties"].data)` is the first expression to raise when
the metric results carry no data (their `.data` is `None` after a skip). -/
def wCalcRisk :
    Ctx → (String → Option (ComputationResult WValue)) → Except String WValue :=
  fun _ deps =>
    match deps "concentration" with
    | none => .error "AttributeError: 'NoneType' object has no attribute 'data'"
    | some rc =>
      match deps "stablecoin_ratio" with
      | none =>
          .error "AttributeError: 'NoneType' object has no attribute 'data'"
      | some rs =>
        match deps "counterparties" with
        | none =>
            .error "AttributeError: 'NoneType' object has no attribute 'data'"
        | some rcp =>
          match rcp.data with
          | some (.strs cps) =>
            match deps "suspicious_patterns" with
            | none => .error
                "AttributeError: 'NoneType' object has no attribute 'data'"
            | some rsp =>
              match rc.data, rs.data, rsp.data with
              | some (.num c), some (.num s), some (.pats ps) =>
                  let sd := compute_trust_score c s cps.length ps
                  .ok (.scored sd.1 sd.2)
              | _, _, _ => .error "TypeError: unsupported operand type"
          | _ => .error "TypeError: object of type 'NoneType' has no len()"

/-- `generate_report`: unpacking `deps["risk_score"].data` raises first
when the score pair is missing, then subscripting the fetched data, then
listing the counterparties.  (When the risk score completed, the metric
results necessarily carry their values, so reading them as numbers and
patterns is exact.) -/
def wGenerateReport :
    Ctx → (String → Option (ComputationResult WValue)) → Except String WValue :=
  fun ctx deps =>
    match deps "fetch_data" with
    | none => .error "AttributeError: 'NoneType' object has no attribute 'data'"
    | some rf =>
      match deps "risk_score" with
      | none =>
          .error "AttributeError: 'NoneType' object has no attribute 'data'"
      | some rr =>
        match rr.data with
        | some (.scored score ded) =>
          match rf.data with
          | some (.wallet balances transfers) =>
            match deps "concentration", deps "stablecoin_ratio",
                deps "counterparties", deps "suspicious_patterns" with
            | some rc, some rs, some rcp, some rsp =>
              match rc.data, rs.data, rcp.data, rsp.data with
              | some (.num c), some (.num s), some (.strs cps),
                some (.pats ps) =>
                  .ok (.report ctx.address ctx.lookback_days balances
                    transfers c s cps.length cps ps score
                    (get_risk_level_from_trust_score score) ded)
              | _, _, _, _ => .error "TypeError: unsupported operand type"
            | _, _, _, _ => .error
                "AttributeError: 'NoneType' object has no attribute 'data'"
          | _ => .error "TypeError: 'NoneType' object is not subscriptable"
        | _ => .error "TypeError: cannot unpack non-sequence"

/-- `WalletAnalysisGraphBuilder.build_graph`, parametrised by the data
fetcher collaborator (`self.data_fetcher.get_full_wallet_data`, an
external call).  The seven `add_node` calls use fresh ids, so each
appends its node; the resulting node dict is written out directly (see
`buildWalletGraph_eq_add_node`).  Python set-valued dependency
collections are modelled as lists in the order written in the source. -/
def buildWalletGraph (fetch : Ctx → Except String WValue) :
    ComputationGraph WValue :=
  ⟨[ { id := "fetch_data", name := "Fetch Wallet Data",
       compute_fn := fun ctx _ => fetch ctx },
     { id := "concentration", name := "Compute Concentration",
       compute_fn := wCalcConcentration, dependencies := ["fetch_data"] },
     { id := "stablecoin_ratio", name := "Compute Stablecoin Ratio",
       compute_fn := wCalcStablecoin, dependencies := ["fetch_data"] },
     { id := "counterparties", name := "Extract Counterparties",
       compute_fn := wCalcCounterparties, dependencies := ["fetch_data"] },
     { id := "suspicious_patterns", name := "Detect Suspicious Patterns",
       compute_fn := wCalcSuspicious, dependencies := ["fetch_data"] },
     { id := "risk_score", name := "Compute Risk Score",
       compute_fn := wCalcRisk,
       dependencies := ["concentration", "stablecoin_ratio", "counterparties",
                        "suspicious_patterns"] },
     { id := "final_report", name := "Generate Final Report",
       compute_fn := wGenerateReport,
       dependencies := ["fetch_data", "concentration", "stablecoin_ratio",
                        "counterparties", "suspicious_patterns",
                        "risk_score"] } ]⟩

/-- The node dict above is exactly what the seven `add_node` calls of
`build_graph` produce. -/
lemma buildWalletGraph_eq_add_node (fetch : Ctx → Except String WValue) :
    buildWalletGraph fetch =
      ((((((ComputationGraph.add_node ⟨[]⟩
        "fetch_data" "Fetch Wallet Data" (fun ctx _ => fetch ctx)
          [] true).add_node
        "concentration" "Compute Concentration" wCalcConcentration
          ["fetch_data"] true).add_node
        "stablecoin_ratio" "Compute Stablecoin Ratio" wCalcStablecoin
          ["fetch_data"] true).add_node
        "counterparties" "Extract Counterparties" wCalcCounterparties
          ["fetch_data"] true).add_node
        "suspicious_patterns" "Detect Suspicious Patterns" wCalcSuspicious
          ["fetch_data"] true).add_node
        "risk_score" "Compute Risk Score" wCalcRisk
          ["concentration", "stablecoin_ratio", "counterparties",
           "suspicious_patterns"] true).add_node
        "final_report" "Generate Final Report" wGenerateReport
          ["fetch_data", "concentration", "stablecoin_ratio",
           "counterparties", "suspicious_patterns", "risk_score"] true := by
  simp [buildWalletGraph, ComputationGraph.add_node]

/-! ## Claim C1: failure propagation -/

set_option maxHeartbeats 4000000 in
/-- C1 (amended): when a `required` node's recorded result is `FAILED`,
every node *directly* depending on it is recorded as `SKIPPED` with an
error naming a failed required dependency — transitive dependents are
not skipped in general (see the counterexample
`c1_transitive_dependent_executes`).  In the canonical wallet-analysis
graph a failing fetch nevertheless reaches the terminal `final_report`
node: the four metric nodes are skipped directly, `risk_score` then
fails on their missing data, and `final_report` is skipped with a
reference to a failed required dependency. -/
theorem c1_required_failure_skips_direct_dependents :
    (∀ (α : Type) (g : ComputationGraph α) (ctx : Ctx),
      AcyclicP g → DepsPresent g →
      ∀ results : List (String × ComputationResult α),
      g.execute ctx = .ok results →
      ∀ nid, presentB g nid = true →
      (∃ d ∈ depsOf g nid, requiredOf g d = true ∧
        ∃ rd, lookupRes results d = some rd ∧ rd.state = .failed) →
      ∃ res, lookupRes results nid = some res ∧ res.state = .skipped ∧
        ∃ df, df ∈ depsOf g nid ∧ requiredOf g df = true ∧
          res.error = some ("Dependency " ++ df ++ " failed") ∧
          ∃ rf, lookupRes results df = some rf ∧ rf.state = .failed) ∧
    (∀ (fetch : Ctx → Except String WValue) (ctx : Ctx) (e : String),
      fetch ctx = .error e →
      ∃ results, (buildWalletGraph fetch).execute ctx = .ok results ∧
        (∀ m ∈ ["concentration", "stablecoin_ratio", "counterparties",
                "suspicious_patterns"],
          ∃ r, lookupRes results m = some r ∧ r.state = .skipped ∧
            r.error = some "Dependency fetch_data failed") ∧
        ∃ r, lookupRes results "final_report" = some r ∧
          r.state = .skipped ∧
          ∃ df, df ∈ depsOf (buildWalletGraph fetch) "final_report" ∧
            requiredOf (buildWalletGraph fetch) df = true ∧
            r.error = some ("Dependency " ++ df ++ " failed") ∧
            ∃ rf, lookupRes results df = some rf ∧ rf.state = .failed) := by
  constructor
  · intro α g ctx hac hdp results hex nid hpres hddep
    obtain ⟨bs, hgb₀, hiff, hnd, hdeps⟩ := get_parallel_batches_ok g hac hdp
    obtain ⟨bs', hgb, hres⟩ := execute_ok_inv g ctx hex
    rw [hgb₀] at hgb
    injection hgb with hbseq
    subst hbseq
    subst hres
    obtain ⟨htnd, htpres, htcov⟩ := topoOrderOf_basic g
    have hp : ∀ x ∈ bs.flatten, presentB g x = true :=
      fun x hx => htpres x ((hiff x).mp hx)
    have hnidfl : nid ∈ bs.flatten := (hiff nid).mpr (htcov nid hpres)
    obtain ⟨s, hsmem, hnids⟩ := List.mem_flatten.mp hnidfl
    obtain ⟨⟨j, hj⟩, hget⟩ := List.mem_iff_get.mp hsmem
    rw [← hget] at hnids
    have hs : (findNode g nid).isSome = true := hpres
    obtain ⟨node, hnode⟩ := Option.isSome_iff_exists.mp hs
    have hlookup : lookupRes (execAcc g ctx bs) nid =
        some (executeNode g (execAcc g ctx (bs.take j)) ctx node) := by
      rw [execAcc_eq_drop_foldl g ctx bs (j + 1)]
      exact lookupRes_stable_foldl g ctx _
        (execAcc_lookup_batch g ctx bs hp hnd j hj hnids hnode)
    obtain ⟨d, hdmem, hdreq, rd, hrd, hrdstate⟩ := hddep
    have hdfl : d ∈ (bs.take j).flatten := hdeps j hj nid hnids d hdmem
    obtain ⟨rd', hrd'⟩ : ∃ rd',
        lookupRes (execAcc g ctx (bs.take j)) d = some rd' := by
      cases hcase : lookupRes (execAcc g ctx (bs.take j)) d with
      | none =>
        rw [lookupRes_eq_none_iff, execAcc_keys g ctx bs hp j] at hcase
        exact absurd hdfl hcase
      | some rd' => exact ⟨rd', rfl⟩
    have hrdfinal : lookupRes (execAcc g ctx bs) d = some rd' := by
      rw [execAcc_eq_drop_foldl g ctx bs j]
      exact lookupRes_stable_foldl g ctx _ hrd'
    rw [hrd] at hrdfinal
    cases hrdfinal
    have hdn : d ∈ node.dependencies := by
      rwa [depsOf_eq_of_find hnode] at hdmem
    have hpredd : (fun dd =>
        match lookupRes (execAcc g ctx (bs.take j)) dd with
        | some r => r.state == NodeState.failed && requiredOf g dd
        | none => false) d = true := by
      simp only [hrd']
      simp [hrdstate, hdreq]
    cases hfind : node.dependencies.find? (fun dd =>
        match lookupRes (execAcc g ctx (bs.take j)) dd with
        | some r => r.state == NodeState.failed && requiredOf g dd
        | none => false) with
    | none =>
      exact absurd hpredd (List.find?_eq_none.mp hfind d hdn)
    | some df =>
      have hdfmem := List.mem_of_find?_eq_some hfind
      have hdfpred := List.find?_some hfind
      obtain ⟨rf, hrf, hrfstate, hrfreq⟩ : ∃ rf,
          lookupRes (execAcc g ctx (bs.take j)) df = some rf ∧
          rf.state = .failed ∧ requiredOf g df = true := by
        cases hcase : lookupRes (execAcc g ctx (bs.take j)) df with
        | none => rw [hcase] at hdfpred; simp at hdfpred
        | some rf =>
          rw [hcase] at hdfpred
          simp only [Bool.and_eq_true, beq_iff_eq] at hdfpred
          exact ⟨rf, rfl, hdfpred.1, hdfpred.2⟩
      have hexecnode : executeNode g (execAcc g ctx (bs.take j)) ctx node =
          { node_id := node.id, state := .skipped,
            error := some ("Dependency " ++ df ++ " failed") } := by
        unfold executeNode
        rw [hfind]
      refine ⟨_, hlookup, ?_⟩
      rw [hexecnode]
      refine ⟨rfl, df, ?_, hrfreq, rfl, rf, ?_, hrfstate⟩
      · rwa [depsOf_eq_of_find hnode]
      · rw [execAcc_eq_drop_foldl g ctx bs j]
        exact lookupRes_stable_foldl g ctx _ hrf
  · intro fetch ctx e hf
    refine ⟨[("fetch_data",
        { node_id := "fetch_data", state := .failed, error := some e }),
      ("concentration",
        { node_id := "concentration", state := .skipped,
          error := some "Dependency fetch_data failed" }),
      ("stablecoin_ratio",
        { node_id := "stablecoin_ratio", state := .skipped,
          error := some "Dependency fetch_data failed" }),
      ("counterparties",
        { node_id := "counterparties", state := .skipped,
          error := some "Dependency fetch_data failed" }),
      ("suspicious_patterns",
        { node_id := "suspicious_patterns", state := .skipped,
          error := some "Dependency fetch_data failed" }),
      ("risk_score",
        { node_id := "risk_score", state := .failed,
          error := some
            "TypeError: object of type 'NoneType' has no len()" }),
      ("final_report",
        { node_id := "final_report", state := .skipped,
          error := some "Dependency fetch_data failed" })], ?_, ?_, ?_⟩
    · simp [ComputationGraph.execute, get_parallel_batches, topological_sort,
        validate_dag, validateAux, hasCycleFrom, hasCycleDeps, topoAux,
        visitT, visitList, topoFuel, allIds, nodeIds, depsOf, findNode,
        presentB, batchesAux, buildWalletGraph, List.find?, List.flatten,
        bind, Except.bind, List.filter, List.all, List.isEmpty, Option.getD,
        Option.map, executeBatch, executeNode, lookupRes, requiredOf,
        List.filterMap, wCalcConcentration, wCalcStablecoin,
        wCalcCounterparties, wCalcSuspicious, wCalcRisk, wGenerateReport, hf,
        (show (NodeState.skipped == NodeState.failed) = false from rfl),
        (show (NodeState.failed == NodeState.failed) = true from rfl)]
    · intro m hm
      fin_cases hm <;> exact ⟨_, rfl, rfl, rfl⟩
    · exact ⟨_, rfl, rfl, "fetch_data",
        by simp [depsOf, findNode, buildWalletGraph, List.find?],
        rfl, rfl, _, rfl, rfl⟩

/-- Witness for C1 on a concrete failing fetcher: the canonical graph's
terminal report is skipped with a reference to a failed required
dependency, and every metric node is skipped directly. -/
theorem c1_required_failure_skips_direct_dependents_witness :
    ∃ results,
      (buildWalletGraph (fun _ => .error "boom")).execute exCtx =
        .ok results ∧
      (∀ m ∈ ["concentration", "stablecoin_ratio", "counterparties",
              "suspicious_patterns"],
        ∃ r, lookupRes results m = some r ∧ r.state = .skipped ∧
          r.error = some "Dependency fetch_data failed") ∧
      ∃ r, lookupRes results "final_report" = some r ∧ r.state = .skipped ∧
        ∃ df, df ∈ depsOf (buildWalletGraph (fun _ => .error "boom"))
            "final_report" ∧
          requiredOf (buildWalletGraph (fun _ => .error "boom")) df = true ∧
          r.error = some ("Dependency " ++ df ++ " failed") ∧
          ∃ rf, lookupRes results df = some rf ∧ rf.state = .failed :=
  c1_required_failure_skips_direct_dependents.2
    (fun _ => .error "boom") exCtx "boom" rfl

/-! ## Claim C9: single-flight fetching under the per-key lock -/

/-- The phase of one `get_balances` caller in the cooperative (asyncio)
interleaving: before its first cache check, blocked on the per-key lock,
inside the critical section, or returned with a value.  The locked body
contains no `await` (the `neo_client` call is synchronous), so the
double-check, fetch, store and return run as one atomic step; the
pre-lock cache check and lock request are likewise await-free. -/
inductive SFPhase (α : Type) where
  | start
  | waitLock
  | holding
  | done (v : α)

/-- The shared state of concurrent `get_balances` callers for one key:
the singleton cache, the per-key `asyncio.Lock` (one lock object per
key via the `defaultdict`), each caller's phase, and the number of
`neo_client.get_nep17_balances` upstream calls made so far. -/
structure SFState (α : Type) where
  cache : WalletDataCache α
  lockHeld : Bool
  tasks : List (SFPhase α)
  fetchCount : ℕ

/-- One interleaving step at fixed wall-clock time `now` (`up` is the
value the upstream returns, `op`/`params`/`ttl` fix the cache key).  A
caller is selected by splitting the task list around its phase. -/
inductive SFStep (α : Type) (op : String) (params : List (String × String))
    (now ttl : ℚ) (up : α) : SFState α → SFState α → Prop where
  | startHit (s : SFState α) (pre post : List (SFPhase α)) (v : α)
      (htasks : s.tasks = pre ++ .start :: post)
      (hc : (s.cache.get op now ttl params).1 = some v) :
      SFStep α op params now ttl up s
        { s with tasks := pre ++ .done v :: post,
                 cache := (s.cache.get op now ttl params).2 }
  | startMiss (s : SFState α) (pre post : List (SFPhase α))
      (htasks : s.tasks = pre ++ .start :: post)
      (hc : (s.cache.get op now ttl params).1 = none) :
      SFStep α op params now ttl up s
        { s with tasks := pre ++ .waitLock :: post,
                 cache := (s.cache.get op now ttl params).2 }
  | acquire (s : SFState α) (pre post : List (SFPhase α))
      (htasks : s.tasks = pre ++ .waitLock :: post)
      (hl : s.lockHeld = false) :
      SFStep α op params now ttl up s
        { s with tasks := pre ++ .holding :: post, lockHeld := true }
  | holdHit (s : SFState α) (pre post : List (SFPhase α)) (v : α)
      (htasks : s.tasks = pre ++ .holding :: post)
      (hc : (s.cache.get op now ttl params).1 = some v) :
      SFStep α op params now ttl up s
        { s with tasks := pre ++ .done v :: post,
                 cache := (s.cache.get op now ttl params).2,
                 lockHeld := false }
  | holdMiss (s : SFState α) (pre post : List (SFPhase α))
      (htasks : s.tasks = pre ++ .holding :: post)
      (hc : (s.cache.get op now ttl params).1 = none) :
      SFStep α op params now ttl up s
        { s with tasks := pre ++ .done up :: post,
                 cache := ((s.cache.get op now ttl params).2).set op up now
                   params,
                 lockHeld := false,
                 fetchCount := s.fetchCount + 1 }

/-- The initial state: empty cache (the key is uncached), free lock,
`N` callers about to run. -/
def sfInit (α : Type) (N : ℕ) : SFState α :=
  ⟨⟨[]⟩, false, List.replicate N .start, 0⟩

/-- `get` on the empty cache misses and leaves it empty. -/
lemma sfGet_empty {α : Type} (op : String) (params : List (String × String))
    (now ttl : ℚ) :
    ((⟨[]⟩ : WalletDataCache α).get op now ttl params) = (none, ⟨[]⟩) := rfl

/-- `get` on the singleton cache holding a fresh entry for the key hits
and leaves the cache unchanged. -/
lemma sfGet_entry {α : Type} (op : String) (params : List (String × String))
    (now ttl : ℚ) (v : α) (t : ℚ) (h : now - t < ttl) :
    (WalletDataCache.get ⟨[(make_key op params, v, t)]⟩ op now ttl params) =
      (some v, ⟨[(make_key op params, v, t)]⟩) := by
  have hfind : cacheFind (⟨[(make_key op params, v, t)]⟩ : WalletDataCache α)
      (make_key op params) = some (v, t) := by
    unfold cacheFind
    rw [List.find?_cons_of_pos _ (by simp)]
    rfl
  unfold WalletDataCache.get
  simp only [hfind]
  rw [if_pos h]

/-- `set` on the empty cache appends the single entry. -/
lemma sfSet_empty {α : Type} (op : String) (params : List (String × String))
    (now : ℚ) (v : α) :
    ((⟨[]⟩ : WalletDataCache α).set op v now params) =
      ⟨[(make_key op params, v, now)]⟩ := rfl

/-- The single-flight invariant: the cache is empty with no upstream
call yet, or holds exactly the upstream value with exactly one call
made; every finished caller holds the upstream value and finished after
the one call; the number of callers never changes. -/
def SFInv (α : Type) (op : String) (params : List (String × String))
    (now : ℚ) (up : α) (N : ℕ) (s : SFState α) : Prop :=
  (s.cache.entries = [] ∧ s.fetchCount = 0 ∨
    s.cache.entries = [(make_key op params, up, now)] ∧ s.fetchCount = 1) ∧
  (∀ p ∈ s.tasks, ∀ v, p = SFPhase.done v → v = up ∧ s.fetchCount = 1) ∧
  s.tasks.length = N

/-- The invariant holds initially. -/
lemma sfInv_init {α : Type} (op : String) (params : List (String × String))
    (now : ℚ) (up : α) (N : ℕ) :
    SFInv α op params now up N (sfInit α N) := by
  refine ⟨Or.inl ⟨rfl, rfl⟩, ?_, by simp [sfInit]⟩
  intro p hp v hv
  have := List.eq_of_mem_replicate hp
  subst this
  cases hv

/-- Each interleaving step preserves the invariant. -/
lemma sfInv_step {α : Type} {op : String} {params : List (String × String)}
    {now ttl : ℚ} {up : α} {N : ℕ} (httl : 0 < ttl)
    {s t : SFState α} (hstep : SFStep α op params now ttl up s t)
    (hinv : SFInv α op params now up N s) :
    SFInv α op params now up N t := by
  obtain ⟨hcache, htask, hlen⟩ := hinv
  cases hstep with
  | startHit pre post v htasks hc =>
    rcases hcache with ⟨hemp, hfc⟩ | ⟨hone, hfc⟩
    · have hcc : s.cache = ⟨[]⟩ := by rw [← hemp]
      rw [hcc, sfGet_empty] at hc
      cases hc
    · have hcc : s.cache = ⟨[(make_key op params, up, now)]⟩ := by rw [← hone]
      rw [hcc, sfGet_entry op params now ttl up now (by simpa using httl)] at hc
      injection hc with hv
      subst hv
      refine ⟨Or.inr ⟨by rw [hcc,
          sfGet_entry op params now ttl up now (by simpa using httl)], hfc⟩,
        ?_, by simpa [htasks] using hlen⟩
      intro p hp w hw
      rcases List.mem_append.mp hp with hp' | hp'
      · exact htask p (htasks ▸ List.mem_append_left _ hp') w hw
      · rcases List.mem_cons.mp hp' with rfl | hp''
        · cases hw
          exact ⟨rfl, hfc⟩
        · exact htask p (htasks ▸ List.mem_append_right _
            (List.mem_cons_of_mem _ hp'')) w hw
  | startMiss pre post htasks hc =>
    have hc2 : (s.cache.get op now ttl params).2 = s.cache := by
      rcases hcache with ⟨hemp, _⟩ | ⟨hone, _⟩
      · have hcc : s.cache = ⟨[]⟩ := by rw [← hemp]
        rw [hcc, sfGet_empty]
      · have hcc : s.cache = ⟨[(make_key op params, up, now)]⟩ := by
          rw [← hone]
        rw [hcc, sfGet_entry op params now ttl up now (by simpa using httl)]
    refine ⟨by rw [hc2]; exact hcache, ?_, by simpa [htasks] using hlen⟩
    intro p hp w hw
    rcases List.mem_append.mp hp with hp' | hp'
    · exact htask p (htasks ▸ List.mem_append_left _ hp') w hw
    · rcases List.mem_cons.mp hp' with rfl | hp''
      · cases hw
      · exact htask p (htasks ▸ List.mem_append_right _
          (List.mem_cons_of_mem _ hp'')) w hw
  | acquire pre post htasks hl =>
    refine ⟨hcache, ?_, by simpa [htasks] using hlen⟩
    intro p hp w hw
    rcases List.mem_append.mp hp with hp' | hp'
    · exact htask p (htasks ▸ List.mem_append_left _ hp') w hw
    · rcases List.mem_cons.mp hp' with rfl | hp''
      · cases hw
      · exact htask p (htasks ▸ List.mem_append_right _
          (List.mem_cons_of_mem _ hp'')) w hw
  | holdHit pre post v htasks hc =>
    rcases hcache with ⟨hemp, hfc⟩ | ⟨hone, hfc⟩
    · have hcc : s.cache = ⟨[]⟩ := by rw [← hemp]
      rw [hcc, sfGet_empty] at hc
      cases hc
    · have hcc : s.cache = ⟨[(make_key op params, up, now)]⟩ := by rw [← hone]
      rw [hcc, sfGet_entry op params now ttl up now (by simpa using httl)] at hc
      injection hc with hv
      subst hv
      refine ⟨Or.inr ⟨by rw [hcc,
          sfGet_entry op params now ttl up now (by simpa using httl)], hfc⟩,
        ?_, by simpa [htasks] using hlen⟩
      intro p hp w hw
      rcases List.mem_append.mp hp with hp' | hp'
      · exact htask p (htasks ▸ List.mem_append_left _ hp') w hw
      · rcases List.mem_cons.mp hp' with rfl | hp''
        · cases hw
          exact ⟨rfl, hfc⟩
        · exact htask p (htasks ▸ List.mem_append_right _
            (List.mem_cons_of_mem _ hp'')) w hw
  | holdMiss pre post htasks hc =>
    rcases hcache with ⟨hemp, hfc⟩ | ⟨hone, hfc⟩
    · have hcc : s.cache = ⟨[]⟩ := by rw [← hemp]
      refine ⟨Or.inr ⟨by rw [hcc, sfGet_empty, sfSet_empty], by rw [hfc]⟩,
        ?_, by simpa [htasks] using hlen⟩
      intro p hp w hw
      rcases List.mem_append.mp hp with hp' | hp'
      · obtain ⟨_, hfc'⟩ :=
          htask p (htasks ▸ List.mem_append_left _ hp') w hw
        rw [hfc] at hfc'
        cases hfc'
      · rcases List.mem_cons.mp hp' with rfl | hp''
        · cases hw
          exact ⟨rfl, by rw [hfc]⟩
        · obtain ⟨_, hfc'⟩ := htask p (htasks ▸ List.mem_append_right _
            (List.mem_cons_of_mem _ hp'')) w hw
          rw [hfc] at hfc'
          cases hfc'
    · have hcc : s.cache = ⟨[(make_key op params, up, now)]⟩ := by rw [← hone]
      rw [hcc, sfGet_entry op params now ttl up now (by simpa using httl)] at hc
      cases hc

/-- C9: for every `N ≥ 1`, in every interleaving of `N` concurrent
`get_balances` callers for the same uncached key that ends with all
callers returned, exactly one upstream call was made and every caller
returned the upstream value. -/
theorem c9_single_flight (α : Type) (op : String)
    (params : List (String × String)) (now ttl : ℚ) (httl : 0 < ttl)
    (up : α) (N : ℕ) (hN : 1 ≤ N) (s : SFState α)
    (hreach : Relation.ReflTransGen (SFStep α op params now ttl up)
      (sfInit α N) s)
    (hdone : ∀ p ∈ s.tasks, ∃ v, p = SFPhase.done v) :
    s.fetchCount = 1 ∧ ∀ p ∈ s.tasks, p = SFPhase.done up := by
  have hinv : SFInv α op params now up N s := by
    clear hdone
    induction hreach with
    | refl => exact sfInv_init op params now up N
    | tail hsteps hstep ih => exact sfInv_step httl hstep ih
  obtain ⟨hcache, htask, hlen⟩ := hinv
  have hne : s.tasks ≠ [] := by
    intro he
    rw [he] at hlen
    simp at hlen
    omega
  obtain ⟨p₁, hp₁⟩ := List.exists_mem_of_ne_nil s.tasks hne
  obtain ⟨v₁, hv₁⟩ := hdone p₁ hp₁
  have hfc : s.fetchCount = 1 := (htask p₁ hp₁ v₁ hv₁).2
  refine ⟨hfc, ?_⟩
  intro p hp
  obtain ⟨v, hv⟩ := hdone p hp
  obtain ⟨hvu, _⟩ := htask p hp v hv
  rw [hv, hvu]

/-- The cache key of the witness interleaving. -/
def sfKey : String := make_key "balances" [("address", "N1")]

/-- The intermediate states of the witness interleaving of two callers:
both miss the empty cache, the first acquires the lock and fetches, the
second then acquires the lock and hits the cache. -/
def sfW1 : SFState String := ⟨⟨[]⟩, false, [.waitLock, .start], 0⟩

def sfW2 : SFState String := ⟨⟨[]⟩, false, [.waitLock, .waitLock], 0⟩

def sfW3 : SFState String := ⟨⟨[]⟩, true, [.holding, .waitLock], 0⟩

def sfW4 : SFState String :=
  ⟨⟨[(sfKey, "DATA", 0)]⟩, false, [.done "DATA", .waitLock], 1⟩

def sfW5 : SFState String :=
  ⟨⟨[(sfKey, "DATA", 0)]⟩, true, [.done "DATA", .holding], 1⟩

def sfW6 : SFState String :=
  ⟨⟨[(sfKey, "DATA", 0)]⟩, false, [.done "DATA", .done "DATA"], 1⟩

/-- Witness for C9: the concrete interleaving above ends with one
upstream call and both callers holding the upstream value. -/
theorem c9_single_flight_witness :
    sfW6.fetchCount = 1 ∧ ∀ p ∈ sfW6.tasks, p = SFPhase.done "DATA" := by
  have hget : WalletDataCache.get ⟨[(sfKey, "DATA", 0)]⟩
      "balances" 0 60 [("address", "N1")] =
      (some "DATA", ⟨[(sfKey, "DATA", 0)]⟩) :=
    sfGet_entry "balances" [("address", "N1")] 0 60 "DATA" 0 (by norm_num)
  have h1 : SFStep String "balances" [("address", "N1")] 0 60 "DATA"
      (sfInit String 2) sfW1 :=
    SFStep.startMiss _ [] [SFPhase.start] rfl rfl
  have h2 : SFStep String "balances" [("address", "N1")] 0 60 "DATA"
      sfW1 sfW2 :=
    SFStep.startMiss _ [SFPhase.waitLock] [] rfl rfl
  have h3 : SFStep String "balances" [("address", "N1")] 0 60 "DATA"
      sfW2 sfW3 :=
    SFStep.acquire _ [] [SFPhase.waitLock] rfl rfl
  have h4 : SFStep String "balances" [("address", "N1")] 0 60 "DATA"
      sfW3 sfW4 :=
    SFStep.holdMiss _ [] [SFPhase.waitLock] rfl rfl
  have h5 : SFStep String "balances" [("address", "N1")] 0 60 "DATA"
      sfW4 sfW5 :=
    SFStep.acquire _ [SFPhase.done "DATA"] [] rfl rfl
  have h6 : SFStep String "balances" [("address", "N1")] 0 60 "DATA"
      sfW5 sfW6 := by
    have hstep : SFStep String "balances" [("address", "N1")] 0 60 "DATA" sfW5
        ⟨((⟨[(sfKey, "DATA", 0)]⟩ : WalletDataCache String).get "balances" 0 60
            [("address", "N1")]).2, false,
          [SFPhase.done "DATA", SFPhase.done "DATA"], 1⟩ :=
      SFStep.holdHit _ [SFPhase.done "DATA"] [] "DATA" rfl (by
        show ((⟨[(sfKey, "DATA", 0)]⟩ : WalletDataCache String).get "balances"
          0 60 [("address", "N1")]).1 = some "DATA"
        rw [hget])
    rw [hget] at hstep
    exact hstep
  have hreach : Relation.ReflTransGen
      (SFStep String "balances" [("address", "N1")] 0 60 "DATA")
      (sfInit String 2) sfW6 :=
    Relation.ReflTransGen.tail (Relation.ReflTransGen.tail
      (Relation.ReflTransGen.tail (Relation.ReflTransGen.tail
        (Relation.ReflTransGen.tail (Relation.ReflTransGen.tail
          Relation.ReflTransGen.refl h1) h2) h3) h4) h5) h6
  refine c9_single_flight String "balances" [("address", "N1")] 0 60
    (by norm_num) "DATA" 2 (by norm_num) sfW6 hreach ?_
  intro p hp
  rcases List.mem_cons.mp hp with rfl | hp2
  · exact ⟨"DATA", rfl⟩
  · rcases List.mem_cons.mp hp2 with rfl | hp3
    · exact ⟨"DATA", rfl⟩
    · simp at hp3

end WG
